import Mathlib

/-!
# sgen binary protocol: buffers, gate and file sink

A shallow embedding of `mono/sgen/sgen-protocol.c` (the `HAVE_UNISTD_H` build).

* The globals of the C file are the fields of `State`.
* The linked list `binary_protocol_buffers` is a Lean list, newest buffer first;
  the `next` pointer of a buffer is the tail of the list behind it.
* The model is sequential: one thread runs a function from entry to exit, so a
  compare-and-swap always finds the value that was just read.  The
  interleaving of the gate operations between threads is modelled separately
  by the step relation `GateStep`.
* The operating system is an oracle `Env` that decides the result of each
  `write`, `open` and `close` call, indexed by the number of earlier calls of
  the same kind.
* Every C loop that can spin takes a budget `fuel` of passes; running out of
  budget is the outcome `Outcome.spin`, an assertion failure or `g_error` is
  `Outcome.abort`.
* C `int` and `long long` values are unbounded integers; no claim below
  depends on a value leaving the 32 bit range.
-/

namespace SgenProtocol

/-! ## Outcomes -/

/-- Result of running a piece of the program on a state of type `σ`. -/
inductive Outcome (σ α : Type) where
  /-- the code returned to its caller -/
  | ret : α → Outcome σ α
  /-- an assertion failed or `g_error` was called: the process is gone -/
  | abort : Outcome σ α
  /-- the loop budget ran out; the state reached is recorded -/
  | spin : σ → Outcome σ α

/-- Sequencing of outcomes. -/
def Outcome.bind {σ α β : Type} (x : Outcome σ α) (f : α → Outcome σ β) : Outcome σ β :=
  match x with
  | .ret a => f a
  | .abort => .abort
  | .spin s => .spin s

/-! ## Memory -/

/-- A byte area addressed by offset. -/
abbrev Mem := Nat → Nat

/-- The bytes `m[off], ..., m[off + len - 1]`. -/
def memRead (m : Mem) (off len : Nat) : List Nat :=
  (List.range len).map (fun i => m (off + i))

/-- The assignment `m[i] = v`. -/
def memStore (m : Mem) (i v : Nat) : Mem :=
  fun j => if j = i then v else m j

/-- The call `memcpy (dst + off, src, n)`. -/
def memcpy (dst : Mem) (off : Nat) (src : Mem) (n : Nat) : Mem :=
  fun j => if off ≤ j ∧ j < off + n then src (j - off) else dst j

/-- A byte string seen as the memory a pointer to it addresses. -/
def memOfList (l : List Nat) : Mem :=
  fun i => l.getD i 0

/-! ## Data model -/

/-- The constant `BINARY_PROTOCOL_BUFFER_SIZE`, that is `65536 - 2 * 8`. -/
def BINARY_PROTOCOL_BUFFER_SIZE : Nat := 65536 - 2 * 8

/-- The struct `BinaryProtocolBuffer`; its `next` field is the list tail. -/
structure BinaryProtocolBuffer where
  /-- the field `volatile int index` -/
  index : Nat
  /-- the field `unsigned char buffer [BINARY_PROTOCOL_BUFFER_SIZE]` -/
  buffer : Mem

/-- A buffer as `sgen_alloc_os_memory` followed by `index = 0` leaves it. -/
def BinaryProtocolBuffer.fresh : BinaryProtocolBuffer :=
  { index := 0, buffer := fun _ => 0 }

/-- The globals of `sgen-protocol.c` together with the part of the file
system the program touches. -/
structure State where
  /-- the descriptor `binary_protocol_file`, `-1` when the sink is invalid -/
  binary_protocol_file : Int
  /-- the gate counter `binary_protocol_use_count` -/
  binary_protocol_use_count : Int
  /-- the list `binary_protocol_buffers`, newest first -/
  binary_protocol_buffers : List BinaryProtocolBuffer
  /-- the string `filename_or_prefix` -/
  filename_or_prefix : String
  /-- the global `current_file_index` -/
  current_file_index : Nat
  /-- the global `current_file_size` -/
  current_file_size : Int
  /-- the global `file_size_limit` -/
  file_size_limit : Int
  /-- names of the files that exist on disk -/
  disk : List String
  /-- bytes written so far to the file open as `binary_protocol_file` -/
  file_data : List Nat
  /-- number of `write` calls made so far -/
  writes : Nat
  /-- number of `open` calls made so far -/
  opens : Nat
  /-- number of `close` calls made so far -/
  closes : Nat

/-! ## The operating system -/

/-- What a `write` call does. -/
inductive WriteResult where
  /-- at most `k` bytes are accepted; the call returns the number written -/
  | wrote (k : Nat)
  /-- returns `-1` with `errno == EINTR` -/
  | eintr
  /-- returns `-1` with another `errno` -/
  | error
  deriving DecidableEq

/-- What an `open` call followed by the `fcntl` lock does. -/
inductive OpenResult where
  /-- `open` returns the descriptor `fd` and the lock is granted -/
  | opened (fd : Nat)
  /-- `open` returns the descriptor `fd` but the lock is already taken -/
  | locked (fd : Nat)
  /-- `open` returns `-1` with `errno == EINTR` -/
  | eintr
  /-- `open` returns `-1` with another `errno` -/
  | error
  deriving DecidableEq

/-- What a `close` call does. -/
inductive CloseResult where
  /-- returns `0` -/
  | closed
  /-- returns `-1` with `errno == EINTR` -/
  | eintr
  /-- returns `-1` with another `errno` -/
  | error
  deriving DecidableEq

/-- The behaviour of the operating system: the result of the `n`-th call of
each kind. -/
structure Env where
  /-- result of the `n`-th `write` on a valid descriptor -/
  sys_write : Nat → WriteResult
  /-- result of the `n`-th `open` -/
  sys_open : Nat → OpenResult
  /-- result of the `n`-th `close` of a valid descriptor -/
  sys_close : Nat → CloseResult

/-- The call `write (binary_protocol_file, mem + off, n)`.  On the invalid
descriptor `-1` the call fails with `EBADF`. -/
def do_write (env : Env) (mem : Mem) (off n : Nat) (s : State) : WriteResult × State :=
  if s.binary_protocol_file = -1 then
    (WriteResult.error, { s with writes := s.writes + 1 })
  else
    match env.sys_write s.writes with
    | .wrote k =>
      (WriteResult.wrote (min k n),
        { s with writes := s.writes + 1, file_data := s.file_data ++ memRead mem off (min k n) })
    | .eintr => (WriteResult.eintr, { s with writes := s.writes + 1 })
    | .error => (WriteResult.error, { s with writes := s.writes + 1 })

/-- The call `close (binary_protocol_file)`.  On the invalid descriptor `-1`
the call fails with `EBADF`. -/
def do_close (env : Env) (s : State) : CloseResult × State :=
  if s.binary_protocol_file = -1 then
    (CloseResult.error, { s with closes := s.closes + 1 })
  else
    (env.sys_close s.closes, { s with closes := s.closes + 1 })

/-- The file `name` comes into existence. -/
def disk_create (name : String) (disk : List String) : List String :=
  if name ∈ disk then disk else name :: disk

/-- The call `unlink (name)`. -/
def disk_unlink (name : String) (disk : List String) : List String :=
  disk.filter (fun f => decide (f ≠ name))

/-! ## File names and opening -/

/-- The function `filename_for_index`: `sprintf (filename, "%s.%d", filename_or_prefix, index)`,
after the assertion `file_size_limit > 0`. -/
def filename_for_index (index : Nat) (s : State) : Outcome State String :=
  if 0 < s.file_size_limit then
    .ret ( State.filename_or_prefix s ++ "." ++ toString index)
  else .abort

/-- The `do ... while (binary_protocol_file == -1)` loop of
`binary_protocol_open_file` on the file `filename`. -/
def open_loop (env : Env) (filename : String) : Nat → State → Outcome State State
  | 0, s => .spin s
  | fuel + 1, s =>
    match env.sys_open s.opens with
    | .error =>
      -- open failed, errno != EINTR: break
      .ret { s with binary_protocol_file := -1, opens := s.opens + 1 }
    | .eintr =>
      open_loop env filename fuel { s with binary_protocol_file := -1, opens := s.opens + 1 }
    | .locked _ =>
      -- the file exists now; close it, mark it invalid, break
      .ret { s with binary_protocol_file := -1, opens := s.opens + 1,
                    closes := s.closes + 1, disk := disk_create filename s.disk }
    | .opened fd =>
      -- lock acquired: ftruncate (binary_protocol_file, 0)
      .ret { s with binary_protocol_file := (fd : Int), opens := s.opens + 1,
                    disk := disk_create filename s.disk, file_data := [] }

/-- The function `binary_protocol_open_file`. -/
def binary_protocol_open_file (env : Env) (fuel : Nat) (assert_on_failure : Bool) (s : State) :
    Outcome State State :=
  (if 0 < s.file_size_limit then filename_for_index s.current_file_index s
   else .ret ( State.filename_or_prefix s)).bind fun filename =>
  (open_loop env filename fuel s).bind fun s1 =>
  if s1.binary_protocol_file = -1 ∧ assert_on_failure = true then .abort
  else .ret s1

/-- The function `binary_protocol_is_enabled`. -/
def binary_protocol_is_enabled (s : State) : Bool :=
  decide (s.binary_protocol_file ≠ -1)

/-- The function `close_binary_protocol_file`: `close` is repeated while it
fails with `EINTR`, then the descriptor is set to `-1`. -/
def close_binary_protocol_file (env : Env) : Nat → State → Outcome State State
  | 0, s => .spin s
  | fuel + 1, s =>
    match do_close env s with
    | (.eintr, s1) => close_binary_protocol_file env fuel s1
    | (_, s1) => .ret { s1 with binary_protocol_file := -1 }

/-! ## The gate -/

/-- The function `try_lock_exclusive`: fails when the counter is non-zero,
otherwise swaps `0` for `-1`. -/
def try_lock_exclusive (s : State) : Bool × State :=
  if s.binary_protocol_use_count ≠ 0 then (false, s)
  else (true, { s with binary_protocol_use_count := -1 })

/-- The function `unlock_exclusive`: asserts that the counter is `-1` and
swaps it for `0`. -/
def unlock_exclusive (s : State) : Outcome State State :=
  if s.binary_protocol_use_count = -1 then .ret { s with binary_protocol_use_count := 0 }
  else .abort

/-- The function `lock_recursive`: re-reads the counter while it is negative,
then swaps `old_count` for `old_count + 1`. -/
def lock_recursive : Nat → State → Outcome State State
  | 0, s => .spin s
  | fuel + 1, s =>
    if s.binary_protocol_use_count < 0 then lock_recursive fuel s
    else .ret { s with binary_protocol_use_count := s.binary_protocol_use_count + 1 }

/-- The function `unlock_recursive`: asserts `old_count > 0` and swaps
`old_count` for `old_count - 1`. -/
def unlock_recursive (s : State) : Outcome State State :=
  if 0 < s.binary_protocol_use_count then
    .ret { s with binary_protocol_use_count := s.binary_protocol_use_count - 1 }
  else .abort

/-! ## Flushing -/

/-- The `while (written < to_write)` loop of `binary_protocol_flush_buffer`. -/
def flush_buffer_loop (env : Env) (buffer : BinaryProtocolBuffer) :
    Nat → Nat → State → Outcome State State
  | fuel, written, s =>
    if written < buffer.index then
      match fuel with
      | 0 => .spin s
      | fuel + 1 =>
        match do_write env buffer.buffer written (buffer.index - written) s with
        | (.wrote ret, s1) => flush_buffer_loop env buffer fuel (written + ret) s1
        | (.eintr, s1) => flush_buffer_loop env buffer fuel written s1
        | (.error, s1) =>
          (close_binary_protocol_file env (fuel + 1) s1).bind fun s2 =>
            flush_buffer_loop env buffer fuel written s2
    else .ret s

/-- The function `binary_protocol_flush_buffer`. -/
def binary_protocol_flush_buffer (env : Env) (fuel : Nat) (buffer : BinaryProtocolBuffer)
    (s : State) : Outcome State State :=
  if 0 < buffer.index then
    (flush_buffer_loop env buffer fuel 0 s).bind fun s1 =>
      .ret { s1 with current_file_size := s1.current_file_size + (buffer.index : Int) }
  else .abort

/-- The statements of `binary_protocol_check_file_overflow` between the
`close` and the `open`: the previous file is unlinked when
`current_file_index > 0`. -/
def rotate_unlink (s : State) : Outcome State State :=
  if 0 < s.current_file_index then
    (filename_for_index (s.current_file_index - 1) s).bind fun filename =>
      .ret { s with disk := disk_unlink filename s.disk }
  else .ret s

/-- The statements `++current_file_index; current_file_size = 0;`. -/
def rotate_advance (s : State) : State :=
  { s with current_file_index := s.current_file_index + 1, current_file_size := 0 }

/-- The function `binary_protocol_check_file_overflow`. -/
def binary_protocol_check_file_overflow (env : Env) (fuel : Nat) (s : State) :
    Outcome State State :=
  if s.file_size_limit ≤ 0 ∨ s.current_file_size < s.file_size_limit then .ret s
  else
    (close_binary_protocol_file env fuel s).bind fun s1 =>
    (rotate_unlink s1).bind fun s2 =>
    binary_protocol_open_file env fuel true (rotate_advance s2)

/-- The loop `for (i = num_buffers - 1; i >= 0; --i)` of
`binary_protocol_flush_buffers`, over the buffers in the order visited. -/
def flush_loop (env : Env) (fuel : Nat) : List BinaryProtocolBuffer → State → Outcome State State
  | [], s => .ret s
  | b :: bs, s =>
    (binary_protocol_flush_buffer env fuel b s).bind fun s1 =>
    (binary_protocol_check_file_overflow env fuel s1).bind fun s2 =>
    flush_loop env fuel bs s2

/-- The function `binary_protocol_flush_buffers`.  The array `bufs` holds the
list newest first and is walked from its last element down, that is the list
reversed. -/
def binary_protocol_flush_buffers (env : Env) (fuel : Nat) (force : Bool) (s : State) :
    Outcome State (Bool × State) :=
  if s.binary_protocol_file = -1 then .ret (false, s)
  else
    let locked : Bool × State := if force then (true, s) else try_lock_exclusive s
    if locked.1 = false then .ret (false, locked.2)
    else
      let s1 := locked.2
      let bufs := s1.binary_protocol_buffers
      let s2 := { s1 with binary_protocol_buffers := [] }
      (flush_loop env fuel bufs.reverse s2).bind fun s3 =>
        if force then .ret (true, s3)
        else (unlock_exclusive s3).bind fun s4 => .ret (true, s4)

/-! ## Emitting -/

/-- The function `binary_protocol_get_buffer`.  The buffer it returns is the
head of the list in the state it returns. -/
def binary_protocol_get_buffer (length : Nat) (s : State) : State :=
  match s.binary_protocol_buffers with
  | buffer :: _ =>
    if buffer.index + length ≤ BINARY_PROTOCOL_BUFFER_SIZE then s
    else { s with binary_protocol_buffers :=
                    BinaryProtocolBuffer.fresh :: s.binary_protocol_buffers }
  | [] => { s with binary_protocol_buffers := [BinaryProtocolBuffer.fresh] }

/-- The stores of `protocol_entry` into `buffer` once the swap of
`buffer->index` from `index` to `index + 1 + size` has succeeded:
`buffer->buffer [index++] = type; memcpy (buffer->buffer + index, data, size);`. -/
def BinaryProtocolBuffer.with_record (buffer : BinaryProtocolBuffer) (type : Nat) (data : Mem)
    (size : Nat) : BinaryProtocolBuffer :=
  { index := buffer.index + 1 + size,
    buffer := memcpy (memStore buffer.buffer buffer.index type) (buffer.index + 1) data size }

/-- One pass of `protocol_entry` from the label `retry`: either the record is
stored (`Sum.inr`) or control goes back to `retry` (`Sum.inl`). -/
def protocol_entry_pass (type : Nat) (data : Mem) (size : Nat) (s : State) :
    Outcome State (State ⊕ State) :=
  let s1 := binary_protocol_get_buffer (size + 1) s
  match s1.binary_protocol_buffers with
  | [] => .abort
  | buffer :: rest =>
    let index := buffer.index
    if index + 1 + size > BINARY_PROTOCOL_BUFFER_SIZE then .ret (Sum.inl s1)
    else
      -- g_assert (index <= BINARY_PROTOCOL_BUFFER_SIZE), index being index + 1 + size by now
      if index + 1 + size ≤ BINARY_PROTOCOL_BUFFER_SIZE then
        .ret (Sum.inr { s1 with binary_protocol_buffers :=
                                  buffer.with_record type data size :: rest })
      else .abort

/-- The part of `protocol_entry` between `lock_recursive` and
`unlock_recursive`: passes from `retry` until the record is stored. -/
def protocol_entry_retry (type : Nat) (data : Mem) (size : Nat) : Nat → State → Outcome State State
  | 0, s => .spin s
  | fuel + 1, s =>
    (protocol_entry_pass type data size s).bind fun r =>
      match r with
      | Sum.inl s1 => protocol_entry_retry type data size fuel s1
      | Sum.inr s1 => .ret s1

/-- The function `protocol_entry`; `is_pool` is the value of
`sgen_thread_pool_is_thread_pool_thread (mono_native_thread_id_get ())`. -/
def protocol_entry (fuel : Nat) (is_pool : Bool) (type : Nat) (data : Mem) (size : Nat)
    (s : State) : Outcome State State :=
  if s.binary_protocol_file = -1 then .ret s
  else
    let type := if is_pool then type ||| 0x80 else type
    (lock_recursive fuel s).bind fun s1 =>
    (protocol_entry_retry type data size fuel s1).bind fun s2 =>
    unlock_recursive s2

/-! ## The gate shared between threads -/

/-- The gate as several threads see it: the globals, the threads inside a
shared section (one entry per hold) and the threads holding the gate
exclusively. -/
structure Gate where
  /-- the globals, of which the gate operations touch the counter only -/
  st : State
  /-- threads that passed `lock_recursive` and not yet `unlock_recursive` -/
  shared : List Nat
  /-- threads that passed `try_lock_exclusive` and not yet `unlock_exclusive` -/
  exclusive : List Nat

/-- The atomic steps of the gate: each is the successful compare-and-swap of
one of the four gate functions, run by thread `t`. -/
inductive GateStep : Gate → Gate → Prop where
  /-- the swap of `lock_recursive` succeeds -/
  | lock_recursive (g : Gate) (t : Nat) (st1 : State)
      (h : lock_recursive 1 g.st = .ret st1) :
      GateStep g { st := st1, shared := t :: g.shared, exclusive := g.exclusive }
  /-- a shared holder runs `unlock_recursive` -/
  | unlock_recursive (g : Gate) (t : Nat) (st1 : State) (ht : t ∈ g.shared)
      (h : unlock_recursive g.st = .ret st1) :
      GateStep g { st := st1, shared := g.shared.erase t, exclusive := g.exclusive }
  /-- the swap of `try_lock_exclusive` succeeds -/
  | try_lock_exclusive (g : Gate) (t : Nat) (st1 : State)
      (h : try_lock_exclusive g.st = (true, st1)) :
      GateStep g { st := st1, shared := g.shared, exclusive := t :: g.exclusive }
  /-- the exclusive holder runs `unlock_exclusive` -/
  | unlock_exclusive (g : Gate) (t : Nat) (st1 : State) (ht : t ∈ g.exclusive)
      (h : unlock_exclusive g.st = .ret st1) :
      GateStep g { st := st1, shared := g.shared, exclusive := g.exclusive.erase t }

/-- The gates reachable from counter `0` with no holders. -/
inductive GateReachable : Gate → Prop where
  /-- counter `0`, nobody holds the gate -/
  | start (st : State) (h : st.binary_protocol_use_count = 0) :
      GateReachable { st := st, shared := [], exclusive := [] }
  /-- one more atomic step -/
  | step (g g1 : Gate) (hg : GateReachable g) (hs : GateStep g g1) : GateReachable g1

/-- Either one exclusive holder, no shared holder and counter `-1`, or no
exclusive holder and the counter is the number of shared holds. -/
def GateInv (g : Gate) : Prop :=
  (g.exclusive.length = 1 ∧ g.shared = [] ∧ g.st.binary_protocol_use_count = -1) ∨
  (g.exclusive = [] ∧ g.st.binary_protocol_use_count = (g.shared.length : Int))

/-! ## Initial values and sample environments -/

/-- The globals as their static initialisers leave them, with no file on disk. -/
def State.initial : State :=
  { binary_protocol_file := -1, binary_protocol_use_count := 0,
    binary_protocol_buffers := [], filename_or_prefix := "",
    current_file_index := 0, current_file_size := 0, file_size_limit := 0,
    disk := [], file_data := [], writes := 0, opens := 0, closes := 0 }

/-- An operating system on which every call succeeds at once: `write` takes
all the bytes, `open` returns descriptor `3` with the lock, `close` returns `0`. -/
def Env.ideal : Env :=
  { sys_write := fun _ => WriteResult.wrote BINARY_PROTOCOL_BUFFER_SIZE,
    sys_open := fun _ => OpenResult.opened 3,
    sys_close := fun _ => CloseResult.closed }

/-- The initial globals after a successful `open`: descriptor `3`, empty
buffer list, gate counter `0`, no size limit. -/
def State.opened : State :=
  { State.initial with binary_protocol_file := 3 }

/-- An operating system on which every `write` fails with an error other
than `EINTR` (say `EIO`); `open` and `close` succeed. -/
def Env.failing : Env :=
  { sys_write := fun _ => WriteResult.error,
    sys_open := fun _ => OpenResult.opened 3,
    sys_close := fun _ => CloseResult.closed }

/-- A buffer that holds one byte. -/
def BinaryProtocolBuffer.one_byte : BinaryProtocolBuffer :=
  { index := 1, buffer := fun _ => 7 }

/-- The tag byte of a record: the event kind, with bit `0x80` set when the
emitter is a thread-pool thread. -/
def record_tag (is_pool : Bool) (type : Nat) : Nat :=
  if is_pool then type ||| 0x80 else type

/-- The enabled state with one buffer of one byte waiting and the gate free. -/
def State.loaded : State :=
  { State.opened with binary_protocol_buffers := [BinaryProtocolBuffer.one_byte] }

/-- Every `write` on a valid descriptor accepts at least one byte. -/
def Env.writes_progress (env : Env) : Prop :=
  ∀ n, ∃ k, 0 < k ∧ env.sys_write n = WriteResult.wrote k

/-- Every `open` returns a descriptor with the lock granted. -/
def Env.opens_succeed (env : Env) : Prop :=
  ∀ n, ∃ fd, env.sys_open n = OpenResult.opened fd

/-- No `close` of a valid descriptor is interrupted. -/
def Env.closes_complete (env : Env) : Prop :=
  ∀ n, env.sys_close n ≠ CloseResult.eintr

/-- The globals that no file operation writes: the gate counter, the buffer
list, the file name and the size limit agree in `s` and `s1`. -/
def SameCore (s s1 : State) : Prop :=
  s1.binary_protocol_use_count = s.binary_protocol_use_count ∧
  s1.binary_protocol_buffers = s.binary_protocol_buffers ∧
  State.filename_or_prefix s1 = State.filename_or_prefix s ∧
  s1.file_size_limit = s.file_size_limit

/-- The rotation state agrees in `s` and `s1`: files on disk, rotation index
and number of `open` calls. -/
def SameFiles (s s1 : State) : Prop :=
  s1.disk = s.disk ∧ s1.current_file_index = s.current_file_index ∧ s1.opens = s.opens

/-- The name `filename_for_index` builds for index `i`. -/
def indexed_name (s : State) (i : Nat) : String :=
  State.filename_or_prefix s ++ "." ++ toString i

/-- The files on disk are distinct and each is the file of the current
rotation index or of the one before it. -/
def FilesInv (s : State) : Prop :=
  s.disk.Nodup ∧
  ∀ f ∈ s.disk, f = indexed_name s s.current_file_index ∨
    (0 < s.current_file_index ∧ f = indexed_name s (s.current_file_index - 1))

/-- A state in the middle of size-limited operation: limit `100`, file
`log.1` open with `120` bytes written, `log.0` still on disk. -/
def State.rotating : State :=
  { State.initial with
      binary_protocol_file := 3, filename_or_prefix := "log", file_size_limit := 100,
      current_file_index := 1, current_file_size := 120, disk := ["log.1", "log.0"] }

/-- The start of size-limited operation: limit `100`, file `log.0` open and
empty, rotation index `0`. -/
def State.limited : State :=
  { State.initial with
      binary_protocol_file := 3, filename_or_prefix := "log", file_size_limit := 100,
      disk := ["log.0"] }

/-- A buffer that holds `120` bytes. -/
def BinaryProtocolBuffer.large : BinaryProtocolBuffer :=
  { index := 120, buffer := fun _ => 7 }

/-- A record handed to `protocol_entry`: the event kind, whether the
emitter is a thread-pool thread, and the payload bytes. -/
structure Record where
  /-- the event kind passed as `type` -/
  type : Nat
  /-- whether the emitting thread is a thread-pool thread -/
  is_pool : Bool
  /-- the `size` bytes `data` points to -/
  payload : List Nat

/-- The bytes of a record in the file: the tag, then the payload. -/
def Record.bytes (r : Record) : List Nat :=
  record_tag r.is_pool r.type :: r.payload

/-- The calls of `protocol_entry` for the records, one after another. -/
def emit_all (fuel : Nat) : List Record → State → Outcome State State
  | [], s => .ret s
  | r :: rs, s =>
    (protocol_entry fuel r.is_pool r.type (memOfList r.payload) r.payload.length s).bind
      (emit_all fuel rs)

/-- The used part `buffer[0 .. index)` of a buffer. -/
def BinaryProtocolBuffer.contents (b : BinaryProtocolBuffer) : List Nat :=
  memRead b.buffer 0 b.index

/-- The used parts of the buffers of a list, oldest buffer first. -/
def buffered (bufs : List BinaryProtocolBuffer) : List Nat :=
  (bufs.reverse.map BinaryProtocolBuffer.contents).flatten

/-- Three records with payloads of 4, 8 and 2 bytes, the second one emitted
by a thread-pool thread. -/
def sample_records : List Record :=
  [ { type := 1, is_pool := false, payload := [11, 12, 13, 14] },
    { type := 2, is_pool := true, payload := [21, 22, 23, 24, 25, 26, 27, 28] },
    { type := 3, is_pool := false, payload := [31, 32] } ]

/-! ## Basic facts -/

@[simp] theorem Outcome.bind_ret {σ α β : Type} (a : α) (f : α → Outcome σ β) :
    (Outcome.ret a : Outcome σ α).bind f = f a := rfl

@[simp] theorem Outcome.bind_abort {σ α β : Type} (f : α → Outcome σ β) :
    (Outcome.abort : Outcome σ α).bind f = Outcome.abort := rfl

@[simp] theorem Outcome.bind_spin {σ α β : Type} (s : σ) (f : α → Outcome σ β) :
    (Outcome.spin s : Outcome σ α).bind f = Outcome.spin s := rfl

/-- A sequence returns exactly when its first part returns a value on which
the second part returns. -/
theorem Outcome.bind_eq_ret {σ α β : Type} {x : Outcome σ α} {f : α → Outcome σ β} {b : β} :
    x.bind f = Outcome.ret b ↔ ∃ a, x = Outcome.ret a ∧ f a = Outcome.ret b := by
  cases x <;> simp [Outcome.bind]

theorem SameCore.same (s : State) : SameCore s s := ⟨rfl, rfl, rfl, rfl⟩

theorem SameCore.then {a b c : State} (h1 : SameCore a b) (h2 : SameCore b c) : SameCore a c :=
  ⟨h2.1.trans h1.1, h2.2.1.trans h1.2.1, h2.2.2.1.trans h1.2.2.1, h2.2.2.2.trans h1.2.2.2⟩

theorem SameFiles.same_files (s : State) : SameFiles s s := ⟨rfl, rfl, rfl⟩

theorem SameFiles.then_files {a b c : State} (h1 : SameFiles a b) (h2 : SameFiles b c) :
    SameFiles a c :=
  ⟨h2.1.trans h1.1, h2.2.1.trans h1.2.1, h2.2.2.trans h1.2.2⟩

/-- A `close` call changes the call counter only. -/
theorem do_close_snd (env : Env) (s : State) :
    (do_close env s).2 = { s with closes := s.closes + 1 } := by
  unfold do_close
  split <;> rfl

/-- Closing the file touches the descriptor and the call counter only. -/
theorem close_frame (env : Env) (fuel : Nat) (s s1 : State)
    (h : close_binary_protocol_file env fuel s = .ret s1) :
    SameCore s s1 ∧ SameFiles s s1 ∧ s1.binary_protocol_file = -1 ∧
      s1.current_file_size = s.current_file_size ∧ s1.file_data = s.file_data ∧
      s1.writes = s.writes := by
  induction fuel generalizing s with
  | zero => simp [close_binary_protocol_file] at h
  | succ n ih =>
    unfold close_binary_protocol_file at h
    have h2 := do_close_snd env s
    generalize do_close env s = p at h h2
    obtain ⟨r, s2⟩ := p
    simp only at h2
    subst h2
    cases r
    · simp only [Outcome.ret.injEq] at h
      subst h
      simp [SameCore, SameFiles]
    · simpa [SameCore, SameFiles] using ih _ h
    · simp only [Outcome.ret.injEq] at h
      subst h
      simp [SameCore, SameFiles]

/-- A `write` call changes the call counter and the file contents only. -/
theorem do_write_frame (env : Env) (mem : Mem) (off n : Nat) (s : State) :
    SameCore s (do_write env mem off n s).2 ∧ SameFiles s (do_write env mem off n s).2 ∧
      (do_write env mem off n s).2.binary_protocol_file = s.binary_protocol_file ∧
      (do_write env mem off n s).2.current_file_size = s.current_file_size := by
  unfold do_write
  split
  · simp [SameCore, SameFiles]
  · split <;> simp [SameCore, SameFiles]

/-- The write loop leaves the gate, the buffer list, the rotation state and
the size counter alone. -/
theorem flush_buffer_loop_frame (env : Env) (b : BinaryProtocolBuffer) (fuel written : Nat)
    (s s1 : State) (h : flush_buffer_loop env b fuel written s = .ret s1) :
    SameCore s s1 ∧ SameFiles s s1 ∧ s1.current_file_size = s.current_file_size := by
  induction fuel generalizing written s with
  | zero =>
    unfold flush_buffer_loop at h
    split at h
    · simp at h
    · simp only [Outcome.ret.injEq] at h
      subst h
      exact ⟨SameCore.same _, SameFiles.same_files _, rfl⟩
  | succ n ih =>
    unfold flush_buffer_loop at h
    split at h
    · have hw := do_write_frame env b.buffer written (b.index - written) s
      generalize do_write env b.buffer written (b.index - written) s = p at h hw
      obtain ⟨r, s2⟩ := p
      obtain ⟨hc, hf, -, hsz⟩ := hw
      cases r with
      | wrote k =>
        obtain ⟨h1, h2, h3⟩ := ih _ _ h
        exact ⟨hc.then h1, hf.then_files h2, h3.trans hsz⟩
      | eintr =>
        obtain ⟨h1, h2, h3⟩ := ih _ _ h
        exact ⟨hc.then h1, hf.then_files h2, h3.trans hsz⟩
      | error =>
        simp only at h
        obtain ⟨s3, hcl, h⟩ := Outcome.bind_eq_ret.mp h
        obtain ⟨c1, c2, -, c4, -, -⟩ := close_frame _ _ _ _ hcl
        obtain ⟨h1, h2, h3⟩ := ih _ _ h
        exact ⟨(hc.then c1).then h1, (hf.then_files c2).then_files h2, (h3.trans c4).trans hsz⟩
    · simp only [Outcome.ret.injEq] at h
      subst h
      exact ⟨SameCore.same _, SameFiles.same_files _, rfl⟩

/-- Flushing one buffer adds the buffer's index to `current_file_size` and
leaves the gate, the buffer list and the rotation state alone. -/
theorem flush_buffer_frame (env : Env) (fuel : Nat) (b : BinaryProtocolBuffer) (s s1 : State)
    (h : binary_protocol_flush_buffer env fuel b s = .ret s1) :
    SameCore s s1 ∧ SameFiles s s1 ∧
      s1.current_file_size = s.current_file_size + (b.index : Int) := by
  unfold binary_protocol_flush_buffer at h
  split at h
  · obtain ⟨s2, hl, h⟩ := Outcome.bind_eq_ret.mp h
    obtain ⟨h1, h2, h3⟩ := flush_buffer_loop_frame _ _ _ _ _ _ hl
    simp only [Outcome.ret.injEq] at h
    subst h
    refine ⟨?_, ?_, ?_⟩
    · simpa [SameCore] using h1
    · simpa [SameFiles] using h2
    · simp [h3]
  · simp at h

/-- Opening a file leaves the gate, the buffer list, the file name, the size
limit, the rotation index and the size counter alone. -/
theorem open_loop_frame (env : Env) (filename : String) (fuel : Nat) (s s1 : State)
    (h : open_loop env filename fuel s = .ret s1) :
    SameCore s s1 ∧ s1.current_file_index = s.current_file_index ∧
      s1.current_file_size = s.current_file_size ∧
      (s1.disk = s.disk ∨ s1.disk = disk_create filename s.disk) := by
  induction fuel generalizing s with
  | zero => simp [open_loop] at h
  | succ n ih =>
    unfold open_loop at h
    split at h
    · simp only [Outcome.ret.injEq] at h
      subst h
      simp [SameCore]
    · simpa [SameCore] using ih _ h
    · simp only [Outcome.ret.injEq] at h
      subst h
      simp [SameCore]
    · simp only [Outcome.ret.injEq] at h
      subst h
      simp [SameCore]

/-- The function `binary_protocol_open_file` leaves the gate, the buffer list,
the file name, the size limit, the rotation index and the size counter alone. -/
theorem open_file_frame (env : Env) (fuel : Nat) (a : Bool) (s s1 : State)
    (h : binary_protocol_open_file env fuel a s = .ret s1) :
    SameCore s s1 ∧ s1.current_file_index = s.current_file_index ∧
      s1.current_file_size = s.current_file_size := by
  unfold binary_protocol_open_file at h
  obtain ⟨name, -, h⟩ := Outcome.bind_eq_ret.mp h
  obtain ⟨s2, ho, h⟩ := Outcome.bind_eq_ret.mp h
  obtain ⟨h1, h2, h3, -⟩ := open_loop_frame _ _ _ _ _ ho
  split at h
  · simp at h
  · simp only [Outcome.ret.injEq] at h
    subst h
    exact ⟨h1, h2, h3⟩

/-- Unlinking the previous file changes the disk only. -/
theorem rotate_unlink_frame (s s1 : State) (h : rotate_unlink s = .ret s1) :
    SameCore s s1 ∧ s1.current_file_index = s.current_file_index ∧
      s1.binary_protocol_file = s.binary_protocol_file := by
  unfold rotate_unlink at h
  split at h
  · obtain ⟨name, -, h⟩ := Outcome.bind_eq_ret.mp h
    simp only [Outcome.ret.injEq] at h
    subst h
    simp [SameCore]
  · simp only [Outcome.ret.injEq] at h
    subst h
    simp [SameCore]

/-- The rotation check leaves the gate, the buffer list, the file name and
the size limit alone. -/
theorem check_file_overflow_frame (env : Env) (fuel : Nat) (s s1 : State)
    (h : binary_protocol_check_file_overflow env fuel s = .ret s1) : SameCore s s1 := by
  unfold binary_protocol_check_file_overflow at h
  split at h
  · simp only [Outcome.ret.injEq] at h
    subst h
    exact SameCore.same _
  · obtain ⟨s2, hc, h⟩ := Outcome.bind_eq_ret.mp h
    obtain ⟨s3, hu, h⟩ := Outcome.bind_eq_ret.mp h
    obtain ⟨c1, -⟩ := close_frame _ _ _ _ hc
    obtain ⟨u1, -⟩ := rotate_unlink_frame _ _ hu
    obtain ⟨o1, -⟩ := open_file_frame _ _ _ _ _ h
    have ha : SameCore s3 (rotate_advance s3) := by simp [SameCore, rotate_advance]
    exact ((c1.then u1).then ha).then o1

/-- The flush loop leaves the gate, the buffer list, the file name and the
size limit alone. -/
theorem flush_loop_frame (env : Env) (fuel : Nat) (bufs : List BinaryProtocolBuffer)
    (s s1 : State) (h : flush_loop env fuel bufs s = .ret s1) : SameCore s s1 := by
  induction bufs generalizing s with
  | nil =>
    simp only [flush_loop, Outcome.ret.injEq] at h
    subst h
    exact SameCore.same _
  | cons b bs ih =>
    unfold flush_loop at h
    obtain ⟨s2, hb, h⟩ := Outcome.bind_eq_ret.mp h
    obtain ⟨s3, hc, h⟩ := Outcome.bind_eq_ret.mp h
    exact ((flush_buffer_frame _ _ _ _ _ hb).1.then (check_file_overflow_frame _ _ _ _ hc)).then
      (ih _ h)

/-! ## Memory facts -/

theorem memRead_length (m : Mem) (off len : Nat) : (memRead m off len).length = len := by
  simp [memRead]

theorem memRead_zero (m : Mem) (off : Nat) : memRead m off 0 = [] := by
  simp [memRead]

/-- Reading `k + j` bytes is reading `k` bytes and then `j` more. -/
theorem memRead_add (m : Mem) (off k j : Nat) :
    memRead m off (k + j) = memRead m off k ++ memRead m (off + k) j := by
  simp [memRead, List.range_add, List.map_append, List.map_map, Function.comp_def, Nat.add_assoc]

/-- Two memories that agree on a range read the same there. -/
theorem memRead_congr (m m1 : Mem) (off len : Nat)
    (h : ∀ i, i < len → m (off + i) = m1 (off + i)) : memRead m off len = memRead m1 off len := by
  unfold memRead
  apply List.map_congr_left
  intro i hi
  exact h i (List.mem_range.mp hi)

theorem memRead_memOfList (l : List Nat) : memRead (memOfList l) 0 l.length = l := by
  apply List.ext_getElem
  · simp [memRead]
  · intro i h1 h2
    simp [memRead, memOfList, List.getD_eq_getElem?_getD, List.getElem?_eq_getElem h2]

/-- After the tag byte is stored at `o` and `n` payload bytes are copied
behind it, the first `o + 1 + n` bytes are the old first `o` bytes, the tag
and the payload. -/
theorem memRead_record (m src : Mem) (o t n : Nat) :
    memRead (memcpy (memStore m o t) (o + 1) src n) 0 (o + 1 + n) =
      memRead m 0 o ++ t :: memRead src 0 n := by
  rw [Nat.add_assoc, memRead_add, memRead_add]
  have h1 : memRead (memcpy (memStore m o t) (o + 1) src n) 0 o = memRead m 0 o := by
    apply memRead_congr
    intro i hi
    have : ¬ (o + 1 ≤ 0 + i ∧ 0 + i < o + 1 + n) := by omega
    have h2 : ¬ (0 + i = o) := by omega
    simp only [memcpy, memStore, this, h2, if_false]
  have h2 : memRead (memcpy (memStore m o t) (o + 1) src n) (0 + o) 1 = [t] := by
    have : ¬ (o + 1 ≤ 0 + o + 0 ∧ 0 + o + 0 < o + 1 + n) := by omega
    have h0 : List.range 1 = [0] := rfl
    simp only [memRead, h0, List.map_cons, List.map_nil, memcpy, memStore, this, if_false]
    simp
  have h3 : memRead (memcpy (memStore m o t) (o + 1) src n) (0 + o + 1) n = memRead src 0 n := by
    unfold memRead
    apply List.map_congr_left
    intro i hi
    have hi := List.mem_range.mp hi
    have : (o + 1 ≤ 0 + o + 1 + i ∧ 0 + o + 1 + i < o + 1 + n) := by omega
    have h4 : 0 + o + 1 + i - (o + 1) = 0 + i := by omega
    simp only [memcpy, this, and_self, if_true, h4]
  rw [h1, h2, h3]
  simp

/-! ## The write loop when writes make progress -/

/-- When every `write` accepts at least one byte and the descriptor is valid,
the write loop returns within `index - written` passes, having appended the
rest of the buffer to the file, with the descriptor still valid. -/
theorem flush_buffer_loop_ok (env : Env) (hw : env.writes_progress) (b : BinaryProtocolBuffer)
    (fuel written : Nat) (s : State) (hfile : s.binary_protocol_file ≠ -1)
    (hle : written ≤ b.index) (hfuel : b.index - written ≤ fuel) :
    ∃ s1, flush_buffer_loop env b fuel written s = .ret s1 ∧
      s1.file_data = s.file_data ++ memRead b.buffer written (b.index - written) ∧
      s1.binary_protocol_file = s.binary_protocol_file ∧ s1.closes = s.closes := by
  induction fuel generalizing written s with
  | zero =>
    unfold flush_buffer_loop
    have : ¬ written < b.index := by omega
    have h0 : b.index - written = 0 := by omega
    simp [this, h0, memRead_zero]
  | succ n ih =>
    unfold flush_buffer_loop
    by_cases hlt : written < b.index
    · obtain ⟨k, hk, hwk⟩ := hw s.writes
      simp only [hlt, if_true, do_write, hfile, if_false, hwk]
      have hmin : 0 < min k (b.index - written) := by
        simp only [lt_min_iff]
        omega
      have hmin2 : min k (b.index - written) ≤ b.index - written := min_le_right _ _
      obtain ⟨s1, e1, e2, e3, e4⟩ := ih (written + min k (b.index - written))
        { s with writes := s.writes + 1,
                 file_data := s.file_data ++ memRead b.buffer written (min k (b.index - written)) }
        hfile (by omega) (by omega)
      refine ⟨s1, e1, ?_, e3, e4⟩
      rw [e2]
      have hsplit : b.index - written =
          min k (b.index - written) + (b.index - (written + min k (b.index - written))) := by
        omega
      conv_rhs => rw [hsplit, memRead_add]
      simp [List.append_assoc]
    · have h0 : b.index - written = 0 := by omega
      simp [hlt, h0, memRead_zero]

/-! ## The three paths of `binary_protocol_flush_buffers` -/

/-- The forced flush with the sink enabled: the flush loop over the reversed
list, the gate untouched. -/
theorem flush_buffers_forced (env : Env) (fuel : Nat) (s : State)
    (hfile : s.binary_protocol_file ≠ -1) :
    binary_protocol_flush_buffers env fuel true s =
      (flush_loop env fuel s.binary_protocol_buffers.reverse
        { s with binary_protocol_buffers := [] }).bind fun s3 => .ret (true, s3) := by
  simp only [binary_protocol_flush_buffers, hfile, if_false, if_true, Bool.true_eq_false]

/-- The unforced flush with the sink enabled and the gate in use. -/
theorem flush_buffers_busy (env : Env) (fuel : Nat) (s : State)
    (hfile : s.binary_protocol_file ≠ -1) (hc : s.binary_protocol_use_count ≠ 0) :
    binary_protocol_flush_buffers env fuel false s = .ret (false, s) := by
  simp only [binary_protocol_flush_buffers, hfile, if_false, try_lock_exclusive, hc, if_true,
    Bool.false_eq_true, ne_eq, not_false_eq_true]

/-- The unforced flush with the sink enabled and the gate free: the gate is
taken, the flush loop runs over the reversed list, the gate is released. -/
theorem flush_buffers_free (env : Env) (fuel : Nat) (s : State)
    (hfile : s.binary_protocol_file ≠ -1) (hc : s.binary_protocol_use_count = 0) :
    binary_protocol_flush_buffers env fuel false s =
      (flush_loop env fuel s.binary_protocol_buffers.reverse
        { s with binary_protocol_use_count := -1, binary_protocol_buffers := [] }).bind fun s3 =>
          (unlock_exclusive s3).bind fun s4 => .ret (true, s4) := by
  simp only [binary_protocol_flush_buffers, hfile, if_false, try_lock_exclusive, hc,
    Bool.false_eq_true, ne_eq, not_true_eq_false, Bool.true_eq_false]

/-! ## C9: a disabled sink -/

/-- C9: with `binary_protocol_file = -1`, `protocol_entry` returns the state
it was given (gate counter, buffer list and buffer contents unchanged, no
buffer allocated) for every type, payload and size, and
`binary_protocol_flush_buffers` returns `FALSE` with the state unchanged (gate
counter, buffer list, `current_file_size`, `current_file_index`, nothing
written) for both values of `force`; neither needs any loop budget. -/
theorem disabled_sink_is_noop (s : State) (h : s.binary_protocol_file = -1) :
    (∀ (fuel : Nat) (is_pool : Bool) (type : Nat) (data : Mem) (size : Nat),
        protocol_entry fuel is_pool type data size s = .ret s) ∧
    (∀ (env : Env) (fuel : Nat) (force : Bool),
        binary_protocol_flush_buffers env fuel force s = .ret (false, s)) := by
  constructor
  · intro fuel is_pool type data size
    simp [protocol_entry, h]
  · intro env fuel force
    simp [binary_protocol_flush_buffers, h]

/-- C9 at the initial globals, whose descriptor is `-1`. -/
theorem disabled_sink_is_noop_witness :
    State.initial.binary_protocol_file = -1 ∧
    (∀ (fuel : Nat) (is_pool : Bool) (type : Nat) (data : Mem) (size : Nat),
        protocol_entry fuel is_pool type data size State.initial = .ret State.initial) ∧
    (∀ (env : Env) (fuel : Nat) (force : Bool),
        binary_protocol_flush_buffers env fuel force State.initial =
          .ret (false, State.initial)) :=
  ⟨rfl, disabled_sink_is_noop State.initial rfl⟩

/-! ## C3: the forced flush and the gate -/

/-- C3 fails as stated: on the enabled state with gate counter `0` and no
buffers, `binary_protocol_flush_buffers (TRUE)` returns `TRUE` and the gate
counter is `0` on return, not `-1`. -/
theorem forced_flush_sets_counter_counterexample :
    State.opened.binary_protocol_file ≠ -1 ∧
    binary_protocol_flush_buffers Env.ideal 0 true State.opened = .ret (true, State.opened) ∧
    State.opened.binary_protocol_use_count ≠ -1 := by
  refine ⟨by decide, rfl, by decide⟩

/-- C3 as amended: with the sink enabled, for every value of the gate
counter, a forced flush that returns has returned `TRUE` and the gate counter
on return is its value on entry: the forced path neither reads nor writes the
counter. -/
theorem forced_flush_keeps_counter (env : Env) (fuel : Nat) (s s1 : State) (r : Bool)
    (hfile : s.binary_protocol_file ≠ -1)
    (h : binary_protocol_flush_buffers env fuel true s = .ret (r, s1)) :
    r = true ∧ s1.binary_protocol_use_count = s.binary_protocol_use_count := by
  simp only [binary_protocol_flush_buffers, hfile, if_false, if_true] at h
  simp only [Bool.true_eq_false, if_false] at h
  obtain ⟨s3, hl, h⟩ := Outcome.bind_eq_ret.mp h
  simp only [Outcome.ret.injEq, Prod.mk.injEq] at h
  obtain ⟨rfl, rfl⟩ := h
  exact ⟨rfl, (flush_loop_frame _ _ _ _ _ hl).1⟩

/-- C3 amended, on the enabled state with no buffers: the counter stays `0`. -/
theorem forced_flush_keeps_counter_witness :
    State.opened.binary_protocol_file ≠ -1 ∧
    binary_protocol_flush_buffers Env.ideal 0 true State.opened = .ret (true, State.opened) ∧
    (true = true ∧
      State.opened.binary_protocol_use_count = State.opened.binary_protocol_use_count) :=
  ⟨by decide, rfl,
    forced_flush_keeps_counter Env.ideal 0 State.opened State.opened true (by decide) rfl⟩

/-! ## C4: a write that fails -/

/-- With the descriptor already `-1` and bytes left to write, the write loop
never returns: each pass fails with `EBADF` and closes again. -/
theorem flush_buffer_loop_stuck (env : Env) (b : BinaryProtocolBuffer) (fuel written : Nat)
    (s : State) (hfile : s.binary_protocol_file = -1) (hlt : written < b.index) :
    ∃ s1, flush_buffer_loop env b fuel written s = .spin s1 := by
  induction fuel generalizing s with
  | zero =>
    unfold flush_buffer_loop
    simp [hlt]
  | succ n ih =>
    unfold flush_buffer_loop
    simp only [hlt, if_true, do_write, hfile]
    simp only [close_binary_protocol_file, do_close, hfile, if_true, Outcome.bind_ret]
    exact ih _ rfl

/-- Closing either spins or returns with the descriptor `-1`. -/
theorem close_cases (env : Env) (fuel : Nat) (s : State) :
    (∃ s1, close_binary_protocol_file env fuel s = .spin s1) ∨
    (∃ s1, close_binary_protocol_file env fuel s = .ret s1 ∧ s1.binary_protocol_file = -1) := by
  induction fuel generalizing s with
  | zero => exact Or.inl ⟨s, rfl⟩
  | succ n ih =>
    unfold close_binary_protocol_file
    generalize do_close env s = p
    obtain ⟨r, s2⟩ := p
    cases r
    · exact Or.inr ⟨_, rfl, rfl⟩
    · exact ih s2
    · exact Or.inr ⟨_, rfl, rfl⟩

/-- A `write` that fails with `EINTR` is retried: the pass changes nothing
but the call counter, and the descriptor stays valid. -/
theorem write_eintr_retries (env : Env) (b : BinaryProtocolBuffer) (s : State)
    (fuel written : Nat) (hlt : written < b.index) (hfile : s.binary_protocol_file ≠ -1)
    (he : env.sys_write s.writes = WriteResult.eintr) :
    flush_buffer_loop env b (fuel + 1) written s =
      flush_buffer_loop env b fuel written { s with writes := s.writes + 1 } := by
  conv_lhs => unfold flush_buffer_loop
  simp only [hlt, if_true, do_write, hfile, if_false, he]

/-- C4, the defect: when a `write` on the valid descriptor fails with an
error other than `EINTR` at a point of the write loop where bytes of the
buffer are still unwritten, the loop is never left, whatever the loop budget:
`close_binary_protocol_file` sets the descriptor to `-1`, but control stays in
`while (written < to_write)`, and every further `write` on descriptor `-1`
fails again.  In particular `binary_protocol_flush_buffer` does not return to
its caller when its first `write` fails so. -/
theorem write_error_never_returns (env : Env) (b : BinaryProtocolBuffer) (s : State)
    (written : Nat) (hlt : written < b.index) (hfile : s.binary_protocol_file ≠ -1)
    (herr : env.sys_write s.writes = WriteResult.error) (fuel : Nat) :
    (∃ s1, flush_buffer_loop env b fuel written s = .spin s1) ∧
    (written = 0 → ∃ s1, binary_protocol_flush_buffer env fuel b s = .spin s1) := by
  have hloop : ∃ s1, flush_buffer_loop env b fuel written s = .spin s1 := by
    cases fuel with
    | zero =>
      unfold flush_buffer_loop
      simp [hlt]
    | succ n =>
      unfold flush_buffer_loop
      simp only [hlt, if_true, do_write, hfile, if_false, herr]
      rcases close_cases env (n + 1) { s with writes := s.writes + 1 } with
        ⟨s1, h1⟩ | ⟨s1, h1, h2⟩
      · exact ⟨s1, by rw [h1]; rfl⟩
      · rw [h1]
        obtain ⟨s2, h3⟩ := flush_buffer_loop_stuck env b n written s1 h2 hlt
        exact ⟨s2, by simp [h3]⟩
  refine ⟨hloop, ?_⟩
  intro h0
  subst h0
  obtain ⟨s1, h1⟩ := hloop
  unfold binary_protocol_flush_buffer
  rw [if_pos hlt, h1]
  exact ⟨s1, rfl⟩

/-- C4 at a one-byte buffer, descriptor `3`, every `write` failing with
`EIO`: no budget makes `binary_protocol_flush_buffer` return. -/
theorem write_error_never_returns_witness :
    0 < BinaryProtocolBuffer.one_byte.index ∧ State.opened.binary_protocol_file ≠ -1 ∧
    Env.failing.sys_write State.opened.writes = WriteResult.error ∧
    ∀ fuel : Nat, ∃ s1,
      binary_protocol_flush_buffer Env.failing fuel BinaryProtocolBuffer.one_byte State.opened =
        .spin s1 :=
  ⟨by decide, by decide, rfl, fun fuel =>
    (write_error_never_returns Env.failing BinaryProtocolBuffer.one_byte State.opened 0
      (by decide) (by decide) rfl fuel).2 rfl⟩

/-! ## Emitting a record that fits -/

/-- With a non-negative counter the first pass of `lock_recursive` succeeds. -/
theorem lock_recursive_ok (fuel : Nat) (s : State) (hc : 0 ≤ s.binary_protocol_use_count) :
    lock_recursive (fuel + 1) s =
      .ret { s with binary_protocol_use_count := s.binary_protocol_use_count + 1 } := by
  unfold lock_recursive
  have : ¬ s.binary_protocol_use_count < 0 := by omega
  simp [this]

/-- With a negative counter `lock_recursive` spins. -/
theorem lock_recursive_spins (fuel : Nat) (s : State) (hc : s.binary_protocol_use_count < 0) :
    lock_recursive fuel s = .spin s := by
  induction fuel with
  | zero => rfl
  | succ n ih =>
    unfold lock_recursive
    simp [hc, ih]

/-- The state `protocol_entry` returns for a record that fits: the record
goes into the head buffer when that has room, into a fresh head otherwise. -/
theorem protocol_entry_fits (fuel : Nat) (is_pool : Bool) (type : Nat) (data : Mem) (size : Nat)
    (s : State) (hfile : s.binary_protocol_file ≠ -1) (hc : 0 ≤ s.binary_protocol_use_count)
    (hsz : 1 + size ≤ BINARY_PROTOCOL_BUFFER_SIZE) :
    protocol_entry (fuel + 1) is_pool type data size s = .ret
      (match s.binary_protocol_buffers with
       | b :: rest =>
         if b.index + (size + 1) ≤ BINARY_PROTOCOL_BUFFER_SIZE then
           { s with binary_protocol_buffers :=
                      b.with_record (record_tag is_pool type) data size :: rest }
         else
           { s with binary_protocol_buffers :=
                      BinaryProtocolBuffer.fresh.with_record (record_tag is_pool type) data size ::
                        s.binary_protocol_buffers }
       | [] =>
         { s with binary_protocol_buffers :=
                    [BinaryProtocolBuffer.fresh.with_record (record_tag is_pool type) data size] }) := by
  unfold protocol_entry
  simp only [hfile, if_false]
  rw [lock_recursive_ok fuel s hc]
  simp only [Outcome.bind_ret]
  unfold protocol_entry_retry
  unfold protocol_entry_pass binary_protocol_get_buffer
  cases hb : s.binary_protocol_buffers with
  | nil =>
    have h1 : ¬ (BinaryProtocolBuffer.fresh.index + 1 + size > BINARY_PROTOCOL_BUFFER_SIZE) := by
      simp only [BinaryProtocolBuffer.fresh]; omega
    have h2 : BinaryProtocolBuffer.fresh.index + 1 + size ≤ BINARY_PROTOCOL_BUFFER_SIZE := by
      omega
    simp only [h1, h2, if_false, if_true, Outcome.bind_ret, unlock_recursive]
    have h3 : 0 < s.binary_protocol_use_count + 1 := by omega
    simp [h3, BinaryProtocolBuffer.with_record, record_tag]
  | cons b rest =>
    by_cases hroom : b.index + (size + 1) ≤ BINARY_PROTOCOL_BUFFER_SIZE
    · have h1 : ¬ (b.index + 1 + size > BINARY_PROTOCOL_BUFFER_SIZE) := by omega
      have h2 : b.index + 1 + size ≤ BINARY_PROTOCOL_BUFFER_SIZE := by omega
      simp only [hroom, if_true, hb, h1, h2, if_false, Outcome.bind_ret, unlock_recursive]
      have h3 : 0 < s.binary_protocol_use_count + 1 := by omega
      simp [h3, BinaryProtocolBuffer.with_record, record_tag]
    · have h1 : ¬ (BinaryProtocolBuffer.fresh.index + 1 + size > BINARY_PROTOCOL_BUFFER_SIZE) := by
        simp only [BinaryProtocolBuffer.fresh]; omega
      have h2 : BinaryProtocolBuffer.fresh.index + 1 + size ≤ BINARY_PROTOCOL_BUFFER_SIZE := by
        omega
      simp only [hroom, if_false, h1, h2, if_true, Outcome.bind_ret, unlock_recursive]
      have h3 : 0 < s.binary_protocol_use_count + 1 := by omega
      simp [h3, BinaryProtocolBuffer.with_record, record_tag]

/-- The result of `protocol_entry` on an empty buffer list. -/
theorem protocol_entry_fits_nil (fuel : Nat) (is_pool : Bool) (type : Nat) (data : Mem)
    (size : Nat) (s : State) (hfile : s.binary_protocol_file ≠ -1)
    (hc : 0 ≤ s.binary_protocol_use_count) (hsz : 1 + size ≤ BINARY_PROTOCOL_BUFFER_SIZE)
    (hb : s.binary_protocol_buffers = []) :
    protocol_entry (fuel + 1) is_pool type data size s = .ret
      { s with binary_protocol_buffers :=
                 [BinaryProtocolBuffer.fresh.with_record (record_tag is_pool type) data size] } := by
  rw [protocol_entry_fits fuel is_pool type data size s hfile hc hsz]
  simp only [hb]

/-- The result of `protocol_entry` when the head buffer has room. -/
theorem protocol_entry_fits_head (fuel : Nat) (is_pool : Bool) (type : Nat) (data : Mem)
    (size : Nat) (s : State) (b : BinaryProtocolBuffer) (rest : List BinaryProtocolBuffer)
    (hfile : s.binary_protocol_file ≠ -1)
    (hc : 0 ≤ s.binary_protocol_use_count) (hsz : 1 + size ≤ BINARY_PROTOCOL_BUFFER_SIZE)
    (hb : s.binary_protocol_buffers = b :: rest)
    (hroom : b.index + (size + 1) ≤ BINARY_PROTOCOL_BUFFER_SIZE) :
    protocol_entry (fuel + 1) is_pool type data size s = .ret
      { s with binary_protocol_buffers :=
                 b.with_record (record_tag is_pool type) data size :: rest } := by
  rw [protocol_entry_fits fuel is_pool type data size s hfile hc hsz]
  simp only [hb, hroom, if_true]

/-- The result of `protocol_entry` when the head buffer has no room. -/
theorem protocol_entry_fits_new (fuel : Nat) (is_pool : Bool) (type : Nat) (data : Mem)
    (size : Nat) (s : State) (b : BinaryProtocolBuffer) (rest : List BinaryProtocolBuffer)
    (hfile : s.binary_protocol_file ≠ -1)
    (hc : 0 ≤ s.binary_protocol_use_count) (hsz : 1 + size ≤ BINARY_PROTOCOL_BUFFER_SIZE)
    (hb : s.binary_protocol_buffers = b :: rest)
    (hroom : ¬ b.index + (size + 1) ≤ BINARY_PROTOCOL_BUFFER_SIZE) :
    protocol_entry (fuel + 1) is_pool type data size s = .ret
      { s with binary_protocol_buffers :=
                 BinaryProtocolBuffer.fresh.with_record (record_tag is_pool type) data size ::
                   s.binary_protocol_buffers } := by
  rw [protocol_entry_fits fuel is_pool type data size s hfile hc hsz]
  simp only [hb, hroom, if_false]

/-- The record stored at offset `o` reads back as the tag and the payload. -/
theorem memRead_record_at (m src : Mem) (o t n : Nat) :
    memRead (memcpy (memStore m o t) (o + 1) src n) o (1 + n) = t :: memRead src 0 n := by
  have h := memRead_record m src o t n
  rw [Nat.add_assoc, memRead_add, Nat.zero_add] at h
  have hlen : (memRead (memcpy (memStore m o t) (o + 1) src n) 0 o).length =
      (memRead m 0 o).length := by
    simp [memRead_length]
  exact (List.append_inj h hlen).2

/-- Storing a record at offset `o` leaves the bytes below `o` alone. -/
theorem memcpy_below (m src : Mem) (o t n j : Nat) (hj : j < o) :
    memcpy (memStore m o t) (o + 1) src n j = m j := by
  have h1 : ¬ (o + 1 ≤ j ∧ j < o + 1 + n) := by omega
  have h2 : ¬ (j = o) := by omega
  simp only [memcpy, memStore, h1, h2, if_false]

/-! ## C6: appends stay within a buffer -/

/-- C6: in a state whose buffers all have index at most 65520, with the sink
enabled and the gate not held exclusively, `protocol_entry` for a record with
`1 + size <= 65520` returns a state that differs in the buffer list only, in
which every buffer's index is still at most 65520.  If the head buffer exists
and `head.index + 1 + size <= 65520`, the list is the old one with the head
replaced: its index went from `o = head.index` to `o + 1 + size`, the bytes
`[o, o + 1 + size)` are the tag and the payload, the bytes below `o` are
unchanged, and no buffer was allocated.  Otherwise one new buffer is pushed
in front of the unchanged old list, with index `1 + size` and the tag and
payload at offset `0`. -/
theorem protocol_entry_append_in_bounds (fuel : Nat) (is_pool : Bool) (type : Nat) (data : Mem)
    (size : Nat) (s : State) (hfile : s.binary_protocol_file ≠ -1)
    (hc : 0 ≤ s.binary_protocol_use_count)
    (hidx : ∀ b ∈ s.binary_protocol_buffers, b.index ≤ BINARY_PROTOCOL_BUFFER_SIZE)
    (hsz : 1 + size ≤ BINARY_PROTOCOL_BUFFER_SIZE) :
    ∃ s1, protocol_entry (fuel + 1) is_pool type data size s = .ret s1 ∧
      s1 = { s with binary_protocol_buffers := s1.binary_protocol_buffers } ∧
      (∀ b ∈ s1.binary_protocol_buffers, b.index ≤ BINARY_PROTOCOL_BUFFER_SIZE) ∧
      (∀ head rest, s.binary_protocol_buffers = head :: rest →
          head.index + 1 + size ≤ BINARY_PROTOCOL_BUFFER_SIZE →
          ∃ head1, s1.binary_protocol_buffers = head1 :: rest ∧
            head1.index = head.index + 1 + size ∧
            memRead head1.buffer head.index (1 + size) =
              record_tag is_pool type :: memRead data 0 size ∧
            ∀ j, j < head.index → head1.buffer j = head.buffer j) ∧
      ((s.binary_protocol_buffers = [] ∨
          ∃ head rest, s.binary_protocol_buffers = head :: rest ∧
            ¬ head.index + 1 + size ≤ BINARY_PROTOCOL_BUFFER_SIZE) →
          ∃ new_buffer, s1.binary_protocol_buffers = new_buffer :: s.binary_protocol_buffers ∧
            new_buffer.index = 1 + size ∧
            memRead new_buffer.buffer 0 (1 + size) =
              record_tag is_pool type :: memRead data 0 size) := by
  have hfresh : ∀ tag, (BinaryProtocolBuffer.fresh.with_record tag data size).index = 1 + size := by
    intro tag
    show 0 + 1 + size = 1 + size
    omega
  cases hb : s.binary_protocol_buffers with
  | nil =>
    refine ⟨_, protocol_entry_fits_nil fuel is_pool type data size s hfile hc hsz hb, ?_⟩
    refine ⟨rfl, ?_, ?_, ?_⟩
    · intro b hb1
      simp only [List.mem_singleton] at hb1
      subst hb1
      rw [hfresh]
      exact hsz
    · intro head rest h
      simp at h
    · intro _
      exact ⟨_, rfl, hfresh _, memRead_record_at _ _ 0 _ _⟩
  | cons b rest =>
    have hbi : b.index ≤ BINARY_PROTOCOL_BUFFER_SIZE := hidx b (by simp [hb])
    have hrest : ∀ x ∈ rest, x.index ≤ BINARY_PROTOCOL_BUFFER_SIZE :=
      fun x hx => hidx x (by simp [hb, hx])
    by_cases hroom : b.index + (size + 1) ≤ BINARY_PROTOCOL_BUFFER_SIZE
    · refine ⟨_, protocol_entry_fits_head fuel is_pool type data size s b rest hfile hc hsz hb
        hroom, ?_⟩
      refine ⟨rfl, ?_, ?_, ?_⟩
      · intro x hx
        simp only [List.mem_cons] at hx
        rcases hx with rfl | hx
        · simp only [BinaryProtocolBuffer.with_record]
          omega
        · exact hrest x hx
      · intro head rest1 h _
        simp only [List.cons.injEq] at h
        obtain ⟨rfl, rfl⟩ := h
        exact ⟨_, rfl, rfl, memRead_record_at _ _ _ _ _, fun j hj => memcpy_below _ _ _ _ _ j hj⟩
      · intro h
        rcases h with h | ⟨head, rest1, h, hn⟩
        · simp at h
        · simp only [List.cons.injEq] at h
          obtain ⟨rfl, rfl⟩ := h
          exact absurd (by omega) hn
    · refine ⟨_, protocol_entry_fits_new fuel is_pool type data size s b rest hfile hc hsz hb
        hroom, ?_⟩
      refine ⟨rfl, ?_, ?_, ?_⟩
      · intro x hx
        simp only [List.mem_cons] at hx
        rcases hx with rfl | hx
        · rw [hfresh]
          exact hsz
        · exact hidx x hx
      · intro head rest1 h hfit
        simp only [List.cons.injEq] at h
        obtain ⟨rfl, rfl⟩ := h
        exact absurd (by omega) hroom
      · intro _
        exact ⟨_, by rw [hb], hfresh _, memRead_record_at _ _ 0 _ _⟩

/-- C6 on the enabled state with no buffers and a four-byte payload. -/
theorem protocol_entry_append_in_bounds_witness :
    State.opened.binary_protocol_file ≠ -1 ∧ 0 ≤ State.opened.binary_protocol_use_count ∧
    (∀ b ∈ State.opened.binary_protocol_buffers, b.index ≤ BINARY_PROTOCOL_BUFFER_SIZE) ∧
    1 + 4 ≤ BINARY_PROTOCOL_BUFFER_SIZE ∧
    ∃ s1, protocol_entry (0 + 1) false 5 (memOfList [1, 2, 3, 4]) 4 State.opened = .ret s1 ∧
      s1 = { State.opened with binary_protocol_buffers := s1.binary_protocol_buffers } ∧
      (∀ b ∈ s1.binary_protocol_buffers, b.index ≤ BINARY_PROTOCOL_BUFFER_SIZE) ∧
      (∀ head rest, State.opened.binary_protocol_buffers = head :: rest →
          head.index + 1 + 4 ≤ BINARY_PROTOCOL_BUFFER_SIZE →
          ∃ head1, s1.binary_protocol_buffers = head1 :: rest ∧
            head1.index = head.index + 1 + 4 ∧
            memRead head1.buffer head.index (1 + 4) =
              record_tag false 5 :: memRead (memOfList [1, 2, 3, 4]) 0 4 ∧
            ∀ j, j < head.index → head1.buffer j = head.buffer j) ∧
      ((State.opened.binary_protocol_buffers = [] ∨
          ∃ head rest, State.opened.binary_protocol_buffers = head :: rest ∧
            ¬ head.index + 1 + 4 ≤ BINARY_PROTOCOL_BUFFER_SIZE) →
          ∃ new_buffer,
            s1.binary_protocol_buffers = new_buffer :: State.opened.binary_protocol_buffers ∧
            new_buffer.index = 1 + 4 ∧
            memRead new_buffer.buffer 0 (1 + 4) =
              record_tag false 5 :: memRead (memOfList [1, 2, 3, 4]) 0 4) :=
  ⟨by decide, by decide, fun _ h => absurd h (List.not_mem_nil _), by decide,
    protocol_entry_append_in_bounds 0 false 5 (memOfList [1, 2, 3, 4]) 4 State.opened
      (by decide) (by decide) (fun _ h => absurd h (List.not_mem_nil _)) (by decide)⟩

/-! ## C10: termination of `protocol_entry` -/

/-- For a record that does not fit a buffer, `n` passes from `retry` push `n`
empty buffers and come back to `retry`. -/
theorem protocol_entry_retry_oversize (type : Nat) (data : Mem) (size : Nat)
    (hsz : BINARY_PROTOCOL_BUFFER_SIZE < 1 + size) (fuel : Nat) (s : State) :
    protocol_entry_retry type data size fuel s = .spin
      { s with binary_protocol_buffers :=
                 List.replicate fuel BinaryProtocolBuffer.fresh ++ s.binary_protocol_buffers } := by
  induction fuel generalizing s with
  | zero => simp [protocol_entry_retry]
  | succ n ih =>
    unfold protocol_entry_retry
    have hpass : protocol_entry_pass type data size s = .ret (Sum.inl
        { s with binary_protocol_buffers :=
                   BinaryProtocolBuffer.fresh :: s.binary_protocol_buffers }) := by
      unfold protocol_entry_pass binary_protocol_get_buffer
      have h1 : BinaryProtocolBuffer.fresh.index + 1 + size > BINARY_PROTOCOL_BUFFER_SIZE := by
        simp only [BinaryProtocolBuffer.fresh]; omega
      cases hb : s.binary_protocol_buffers with
      | nil => simp only [h1, if_true]
      | cons b rest =>
        have h2 : ¬ b.index + (size + 1) ≤ BINARY_PROTOCOL_BUFFER_SIZE := by omega
        simp only [h2, if_false, h1, if_true]
    rw [hpass]
    simp only [Outcome.bind_ret]
    rw [ih]
    simp [List.replicate_succ', List.append_assoc]

/-- C10: with the sink enabled and the gate counter non-negative,
`protocol_entry` returns for some loop budget exactly when `1 + size <= 65520`.
When the record fits, a budget of one pass per loop is enough: the call
returns with the gate counter at its entry value and at most one buffer more
in the list.  When `1 + size > 65520` it never returns: after any number
`n + 1` of passes control is back at `retry`, the shared gate is still held
(counter one above its entry value) and `n + 1` empty buffers have been
pushed on the list. -/
theorem protocol_entry_terminates_iff_fits (is_pool : Bool) (type : Nat) (data : Mem)
    (size : Nat) (s : State) (hfile : s.binary_protocol_file ≠ -1)
    (hc : 0 ≤ s.binary_protocol_use_count) :
    ((∃ fuel s1, protocol_entry fuel is_pool type data size s = .ret s1) ↔
        1 + size ≤ BINARY_PROTOCOL_BUFFER_SIZE) ∧
    (1 + size ≤ BINARY_PROTOCOL_BUFFER_SIZE →
        ∃ s1, protocol_entry 1 is_pool type data size s = .ret s1 ∧
          s1.binary_protocol_use_count = s.binary_protocol_use_count ∧
          s1.binary_protocol_buffers.length ≤ s.binary_protocol_buffers.length + 1) ∧
    (BINARY_PROTOCOL_BUFFER_SIZE < 1 + size →
        ∀ n, protocol_entry (n + 1) is_pool type data size s = .spin
          { s with binary_protocol_use_count := s.binary_protocol_use_count + 1,
                   binary_protocol_buffers :=
                     List.replicate (n + 1) BinaryProtocolBuffer.fresh ++
                       s.binary_protocol_buffers }) := by
  have hover : BINARY_PROTOCOL_BUFFER_SIZE < 1 + size →
      ∀ n, protocol_entry (n + 1) is_pool type data size s = .spin
        { s with binary_protocol_use_count := s.binary_protocol_use_count + 1,
                 binary_protocol_buffers :=
                   List.replicate (n + 1) BinaryProtocolBuffer.fresh ++
                     s.binary_protocol_buffers } := by
    intro hsz n
    unfold protocol_entry
    simp only [hfile, if_false]
    rw [lock_recursive_ok n s hc]
    simp only [Outcome.bind_ret]
    rw [protocol_entry_retry_oversize _ data size hsz]
    rfl
  have hfit : 1 + size ≤ BINARY_PROTOCOL_BUFFER_SIZE →
      ∃ s1, protocol_entry 1 is_pool type data size s = .ret s1 ∧
        s1.binary_protocol_use_count = s.binary_protocol_use_count ∧
        s1.binary_protocol_buffers.length ≤ s.binary_protocol_buffers.length + 1 := by
    intro hsz
    cases hb : s.binary_protocol_buffers with
    | nil =>
      exact ⟨_, protocol_entry_fits_nil 0 is_pool type data size s hfile hc hsz hb, rfl,
        by simp⟩
    | cons b rest =>
      by_cases hroom : b.index + (size + 1) ≤ BINARY_PROTOCOL_BUFFER_SIZE
      · exact ⟨_, protocol_entry_fits_head 0 is_pool type data size s b rest hfile hc hsz hb
          hroom, rfl, by simp⟩
      · exact ⟨_, protocol_entry_fits_new 0 is_pool type data size s b rest hfile hc hsz hb
          hroom, rfl, by simp [hb]⟩
  refine ⟨⟨?_, ?_⟩, hfit, hover⟩
  · rintro ⟨fuel, s1, h⟩
    by_contra hn
    have hsz : BINARY_PROTOCOL_BUFFER_SIZE < 1 + size := by omega
    cases fuel with
    | zero => simp [protocol_entry, hfile, lock_recursive] at h
    | succ n =>
      rw [hover hsz n] at h
      simp at h
  · intro hsz
    obtain ⟨s1, h, -⟩ := hfit hsz
    exact ⟨1, s1, h⟩

/-- C10 on the enabled state with no buffers and gate counter `0`. -/
theorem protocol_entry_terminates_iff_fits_witness :
    State.opened.binary_protocol_file ≠ -1 ∧ 0 ≤ State.opened.binary_protocol_use_count ∧
    ((∃ fuel s1, protocol_entry fuel true 5 (memOfList []) 65520 State.opened = .ret s1) ↔
        1 + 65520 ≤ BINARY_PROTOCOL_BUFFER_SIZE) ∧
    (1 + 65520 ≤ BINARY_PROTOCOL_BUFFER_SIZE →
        ∃ s1, protocol_entry 1 true 5 (memOfList []) 65520 State.opened = .ret s1 ∧
          s1.binary_protocol_use_count = State.opened.binary_protocol_use_count ∧
          s1.binary_protocol_buffers.length ≤ State.opened.binary_protocol_buffers.length + 1) ∧
    (BINARY_PROTOCOL_BUFFER_SIZE < 1 + 65520 →
        ∀ n, protocol_entry (n + 1) true 5 (memOfList []) 65520 State.opened = .spin
          { State.opened with
              binary_protocol_use_count := State.opened.binary_protocol_use_count + 1,
              binary_protocol_buffers :=
                List.replicate (n + 1) BinaryProtocolBuffer.fresh ++
                  State.opened.binary_protocol_buffers }) :=
  ⟨by decide, by decide,
    protocol_entry_terminates_iff_fits true 5 (memOfList []) 65520 State.opened
      (by decide) (by decide)⟩

/-! ## C2: mutual exclusion of the gate -/

/-- Each atomic step keeps `GateInv`. -/
theorem GateStep.preserves_inv {g g1 : Gate} (hs : GateStep g g1) (hi : GateInv g) :
    GateInv g1 := by
  cases hs with
  | lock_recursive t st1 h =>
    unfold SgenProtocol.lock_recursive at h
    split at h
    · simp [SgenProtocol.lock_recursive] at h
    · rename_i hneg
      simp only [Outcome.ret.injEq] at h
      subst h
      rcases hi with ⟨-, -, h3⟩ | ⟨h1, h2⟩
      · omega
      · right
        refine ⟨h1, ?_⟩
        simp only [List.length_cons, Nat.cast_add, Nat.cast_one]
        omega
  | unlock_recursive t st1 ht h =>
    unfold SgenProtocol.unlock_recursive at h
    split at h
    · simp only [Outcome.ret.injEq] at h
      subst h
      rcases hi with ⟨-, h2, -⟩ | ⟨h1, h2⟩
      · rw [h2] at ht
        simp at ht
      · right
        refine ⟨h1, ?_⟩
        have hlen := List.length_erase_of_mem ht
        have hpos : 0 < g.shared.length := List.length_pos_of_mem ht
        simp only [hlen]
        omega
    · simp at h
  | try_lock_exclusive t st1 h =>
    unfold SgenProtocol.try_lock_exclusive at h
    split at h
    · simp at h
    · rename_i hz
      simp only [Prod.mk.injEq, true_and] at h
      subst h
      rcases hi with ⟨-, -, h3⟩ | ⟨h1, h2⟩
      · omega
      · left
        have hz0 : g.st.binary_protocol_use_count = 0 := by simpa using hz
        have hsh : g.shared = [] := by
          rw [hz0] at h2
          exact List.length_eq_zero.mp (by exact_mod_cast h2.symm)
        simp [h1, hsh]
  | unlock_exclusive t st1 ht h =>
    unfold SgenProtocol.unlock_exclusive at h
    split at h
    · simp only [Outcome.ret.injEq] at h
      subst h
      rcases hi with ⟨h1, h2, -⟩ | ⟨h1, -⟩
      · right
        have hlen := List.length_erase_of_mem ht
        have he : (g.exclusive.erase t).length = 0 := by omega
        simp [List.length_eq_zero.mp he, h2]
      · rw [h1] at ht
        simp at ht
    · simp at h

/-- Every reachable gate satisfies `GateInv`. -/
theorem GateReachable.inv {g : Gate} (hr : GateReachable g) : GateInv g := by
  induction hr with
  | start st h => exact Or.inr ⟨rfl, by simp [h]⟩
  | step g g1 _ hs ih => exact hs.preserves_inv ih

/-- C2: every gate state reachable from counter `0` with no holders by the
successful swaps of `lock_recursive`, `unlock_recursive` (by a shared holder),
`try_lock_exclusive` and `unlock_exclusive` (by the exclusive holder) has
either exactly one exclusive holder, no shared holder and counter `-1`, or no
exclusive holder and the counter equal to the number of shared holds.  So a
shared and an exclusive holder never coexist, `unlock_recursive` run by a
shared holder passes its assertion `old_count > 0`, and `unlock_exclusive`
run by the exclusive holder passes its assertion that the counter is `-1`. -/
theorem gate_mutual_exclusion (g : Gate) (hr : GateReachable g) :
    GateInv g ∧
    ¬ (g.shared ≠ [] ∧ g.exclusive ≠ []) ∧
    (∀ t ∈ g.shared, ∃ st1, unlock_recursive g.st = .ret st1) ∧
    (∀ t ∈ g.exclusive, ∃ st1, unlock_exclusive g.st = .ret st1) := by
  have hi := hr.inv
  refine ⟨hi, ?_, ?_, ?_⟩
  · rintro ⟨h1, h2⟩
    rcases hi with ⟨-, h, -⟩ | ⟨h, -⟩
    · exact h1 h
    · exact h2 h
  · intro t ht
    rcases hi with ⟨-, h, -⟩ | ⟨-, h⟩
    · rw [h] at ht
      simp at ht
    · have hpos : 0 < g.shared.length := List.length_pos_of_mem ht
      have : 0 < g.st.binary_protocol_use_count := by omega
      exact ⟨_, by unfold unlock_recursive; rw [if_pos this]⟩
  · intro t ht
    rcases hi with ⟨-, -, h⟩ | ⟨h, -⟩
    · exact ⟨_, by unfold unlock_exclusive; rw [if_pos h]⟩
    · rw [h] at ht
      simp at ht

/-- C2 after thread `1` took the gate shared from the initial globals. -/
theorem gate_mutual_exclusion_witness :
    GateReachable { st := { State.initial with binary_protocol_use_count := 1 },
                    shared := [1], exclusive := [] } ∧
    (GateInv { st := { State.initial with binary_protocol_use_count := 1 },
               shared := [1], exclusive := [] } ∧
      ¬ (([1] : List Nat) ≠ [] ∧ ([] : List Nat) ≠ []) ∧
      (∀ t ∈ ([1] : List Nat), ∃ st1,
        unlock_recursive { State.initial with binary_protocol_use_count := 1 } = .ret st1) ∧
      (∀ t ∈ ([] : List Nat), ∃ st1,
        unlock_exclusive { State.initial with binary_protocol_use_count := 1 } = .ret st1)) :=
  have hr : GateReachable { st := { State.initial with binary_protocol_use_count := 1 },
                            shared := [1], exclusive := [] } :=
    GateReachable.step _ _ (GateReachable.start State.initial rfl)
      (GateStep.lock_recursive { st := State.initial, shared := [], exclusive := [] } 1 _ rfl)
  ⟨hr, gate_mutual_exclusion _ hr⟩

/-! ## C8: when the file rotates -/

/-- Closing returns at the first pass when that `close` is not interrupted. -/
theorem close_ok (env : Env) (fuel : Nat) (s : State)
    (hcl : env.sys_close s.closes ≠ CloseResult.eintr) :
    close_binary_protocol_file env (fuel + 1) s =
      .ret { s with binary_protocol_file := -1, closes := s.closes + 1 } := by
  unfold close_binary_protocol_file do_close
  by_cases hf : s.binary_protocol_file = -1
  · simp only [hf, if_true]
  · rw [if_neg hf]
    cases hr : env.sys_close s.closes with
    | closed => rfl
    | eintr => exact absurd hr hcl
    | error => rfl

/-- With a size limit configured, unlinking the previous file returns. -/
theorem rotate_unlink_ok (s : State) (hl : 0 < s.file_size_limit) :
    rotate_unlink s = .ret
      { s with disk :=
                 if 0 < s.current_file_index then
                   disk_unlink ( State.filename_or_prefix s ++ "." ++
                     toString (s.current_file_index - 1)) s.disk
                 else s.disk } := by
  unfold rotate_unlink filename_for_index
  by_cases hi : 0 < s.current_file_index
  · simp only [hi, if_true, hl, Outcome.bind_ret]
  · simp only [hi, if_false]

/-- With a size limit configured, opening the current indexed file returns
the descriptor when the first `open` succeeds with the lock. -/
theorem open_file_ok (env : Env) (fuel : Nat) (a : Bool) (s : State) (fd : Nat)
    (hl : 0 < s.file_size_limit) (ho : env.sys_open s.opens = OpenResult.opened fd) :
    binary_protocol_open_file env (fuel + 1) a s = .ret
      { s with binary_protocol_file := (fd : Int), opens := s.opens + 1,
               disk := disk_create ( State.filename_or_prefix s ++ "." ++
                 toString s.current_file_index) s.disk,
               file_data := [] } := by
  unfold binary_protocol_open_file filename_for_index
  simp only [hl, if_true, Outcome.bind_ret]
  unfold open_loop
  simp only [ho, Outcome.bind_ret]
  have : ¬ ((fd : Int) = -1 ∧ a = true) := by omega
  simp only [this, if_false]

/-- The state `binary_protocol_check_file_overflow` returns when it rotates
and the `close` and the `open` go through at once. -/
theorem check_file_overflow_rotate (env : Env) (fuel : Nat) (s : State) (fd : Nat)
    (hl : 0 < s.file_size_limit) (hs : s.file_size_limit ≤ s.current_file_size)
    (hcl : env.sys_close s.closes ≠ CloseResult.eintr)
    (ho : env.sys_open s.opens = OpenResult.opened fd) :
    binary_protocol_check_file_overflow env (fuel + 1) s = .ret
      { s with binary_protocol_file := (fd : Int),
               current_file_index := s.current_file_index + 1,
               current_file_size := 0,
               disk := disk_create
                 ( State.filename_or_prefix s ++ "." ++ toString (s.current_file_index + 1))
                 (if 0 < s.current_file_index then
                    disk_unlink ( State.filename_or_prefix s ++ "." ++
                      toString (s.current_file_index - 1)) s.disk
                  else s.disk),
               file_data := [],
               opens := s.opens + 1,
               closes := s.closes + 1 } := by
  unfold binary_protocol_check_file_overflow
  have hcond : ¬ (s.file_size_limit ≤ 0 ∨ s.current_file_size < s.file_size_limit) := by omega
  simp only [hcond, if_false]
  rw [close_ok env fuel s hcl, Outcome.bind_ret,
    rotate_unlink_ok { s with binary_protocol_file := -1, closes := s.closes + 1 } hl,
    Outcome.bind_ret]
  exact open_file_ok env fuel true (rotate_advance _) fd hl ho

/-- Without a size limit the flush loop never changes the rotation state. -/
theorem flush_loop_no_limit (env : Env) (fuel : Nat) (bufs : List BinaryProtocolBuffer)
    (s s1 : State) (hl : s.file_size_limit ≤ 0) (h : flush_loop env fuel bufs s = .ret s1) :
    SameFiles s s1 := by
  induction bufs generalizing s with
  | nil =>
    simp only [flush_loop, Outcome.ret.injEq] at h
    subst h
    exact SameFiles.same_files _
  | cons b bs ih =>
    unfold flush_loop at h
    obtain ⟨s2, hb, h⟩ := Outcome.bind_eq_ret.mp h
    obtain ⟨s3, hc, h⟩ := Outcome.bind_eq_ret.mp h
    obtain ⟨c1, f1, -⟩ := flush_buffer_frame _ _ _ _ _ hb
    have hl2 : s2.file_size_limit ≤ 0 := by rw [c1.2.2.2]; exact hl
    unfold binary_protocol_check_file_overflow at hc
    simp only [hl2, true_or, if_true, Outcome.ret.injEq] at hc
    subst hc
    exact f1.then_files (ih _ hl2 h)

/-- C8: `binary_protocol_check_file_overflow` returns the state unchanged
(rotation index, size counter, open file, files on disk) when
`file_size_limit <= 0` or `current_file_size < file_size_limit`.  Otherwise,
with limit `L > 0` and the size of file `i` at least `L` (the `close` not
interrupted and the `open` granted descriptor `fd`), it closes file `i`,
unlinks the file named `<prefix>.<i-1>` when `i > 0`, sets
`current_file_index` to `i + 1`, `current_file_size` to `0`, and opens
(creates, empty) the file named `<prefix>.<i+1>` with the index in decimal.
A flushed buffer adds exactly its index to `current_file_size` before the
check, and with no limit configured a whole flush leaves the rotation index
unchanged. -/
theorem rotation_exactly_at_limit (env : Env) (fuel : Nat) (s : State) :
    ((s.file_size_limit ≤ 0 ∨ s.current_file_size < s.file_size_limit) →
        binary_protocol_check_file_overflow env fuel s = .ret s) ∧
    (∀ fd : Nat, 0 < s.file_size_limit → s.file_size_limit ≤ s.current_file_size →
        env.sys_close s.closes ≠ CloseResult.eintr →
        env.sys_open s.opens = OpenResult.opened fd →
        binary_protocol_check_file_overflow env (fuel + 1) s = .ret
          { s with binary_protocol_file := (fd : Int),
                   current_file_index := s.current_file_index + 1,
                   current_file_size := 0,
                   disk := disk_create
                     ( State.filename_or_prefix s ++ "." ++ toString (s.current_file_index + 1))
                     (if 0 < s.current_file_index then
                        disk_unlink ( State.filename_or_prefix s ++ "." ++
                          toString (s.current_file_index - 1)) s.disk
                      else s.disk),
                   file_data := [],
                   opens := s.opens + 1,
                   closes := s.closes + 1 }) ∧
    (∀ (b : BinaryProtocolBuffer) (s1 : State),
        binary_protocol_flush_buffer env fuel b s = .ret s1 →
        s1.current_file_size = s.current_file_size + (b.index : Int) ∧
          s1.current_file_index = s.current_file_index ∧ s1.disk = s.disk) ∧
    (∀ (force r : Bool) (s1 : State), s.file_size_limit ≤ 0 →
        binary_protocol_flush_buffers env fuel force s = .ret (r, s1) →
        s1.current_file_index = s.current_file_index) := by
  refine ⟨?_, ?_, ?_, ?_⟩
  · intro h
    unfold binary_protocol_check_file_overflow
    rw [if_pos h]
  · intro fd hl hs hcl ho
    exact check_file_overflow_rotate env fuel s fd hl hs hcl ho
  · intro b s1 h
    obtain ⟨-, f, hsz⟩ := flush_buffer_frame _ _ _ _ _ h
    exact ⟨hsz, f.2.1, f.1⟩
  · intro force r s1 hl h
    by_cases hfile : s.binary_protocol_file = -1
    · simp only [binary_protocol_flush_buffers, hfile, if_true, Outcome.ret.injEq,
        Prod.mk.injEq] at h
      rw [← h.2]
    · cases force with
      | true =>
        rw [flush_buffers_forced env fuel s hfile] at h
        obtain ⟨s3, hl3, h⟩ := Outcome.bind_eq_ret.mp h
        simp only [Outcome.ret.injEq, Prod.mk.injEq] at h
        rw [← h.2]
        exact (flush_loop_no_limit env fuel _ { s with binary_protocol_buffers := [] } s3
          hl hl3).2.1
      | false =>
        by_cases hc : s.binary_protocol_use_count = 0
        · rw [flush_buffers_free env fuel s hfile hc] at h
          obtain ⟨s3, hl3, h⟩ := Outcome.bind_eq_ret.mp h
          obtain ⟨s4, hu, h⟩ := Outcome.bind_eq_ret.mp h
          simp only [Outcome.ret.injEq, Prod.mk.injEq] at h
          rw [← h.2]
          unfold unlock_exclusive at hu
          split at hu
          · simp only [Outcome.ret.injEq] at hu
            subst hu
            exact (flush_loop_no_limit env fuel _
              { s with binary_protocol_use_count := -1, binary_protocol_buffers := [] } s3
              hl hl3).2.1
          · simp at hu
        · rw [flush_buffers_busy env fuel s hfile hc] at h
          simp only [Outcome.ret.injEq, Prod.mk.injEq] at h
          rw [← h.2]

/-- C8 on a state with limit `100`, file `log.1` at `120` bytes and `log.0`
on disk: the check unlinks `log.0`, moves to index `2` and opens `log.2`. -/
theorem rotation_exactly_at_limit_witness :
    binary_protocol_check_file_overflow Env.ideal (0 + 1) State.rotating = .ret
      { State.rotating with
          binary_protocol_file := 3, current_file_index := 2, current_file_size := 0,
          disk := ["log.2", "log.1"], file_data := [], opens := 1, closes := 1 } :=
  (rotation_exactly_at_limit Env.ideal 0 State.rotating).2.1 3 (by decide) (by decide)
    (by decide) rfl

/-! ## C7: at most two indexed files -/

/-- `FilesInv` depends on the disk, the rotation index and the file name only. -/
theorem FilesInv.of_same {s s1 : State} (hi : FilesInv s) (hd : s1.disk = s.disk)
    (hx : s1.current_file_index = s.current_file_index)
    (hp : State.filename_or_prefix s1 = State.filename_or_prefix s) : FilesInv s1 := by
  unfold FilesInv indexed_name at *
  rw [hd, hx, hp]
  exact hi

theorem disk_create_nodup (name : String) (disk : List String) (h : disk.Nodup) :
    (disk_create name disk).Nodup := by
  unfold disk_create
  split
  · exact h
  · exact List.nodup_cons.mpr ⟨by assumption, h⟩

theorem mem_disk_create {name f : String} {disk : List String} (h : f ∈ disk_create name disk) :
    f = name ∨ f ∈ disk := by
  unfold disk_create at h
  split at h
  · exact Or.inr h
  · exact List.mem_cons.mp h

/-- With `FilesInv` at most two files are on disk. -/
theorem FilesInv.length_le_two {s : State} (hi : FilesInv s) : s.disk.length ≤ 2 := by
  obtain ⟨hn, hm⟩ := hi
  have hsub : s.disk.toFinset ⊆
      {indexed_name s s.current_file_index, indexed_name s (s.current_file_index - 1)} := by
    intro f hf
    rcases hm f (List.mem_toFinset.mp hf) with h | ⟨-, h⟩
    · simp [h]
    · simp [h]
  calc s.disk.length = s.disk.toFinset.card := (List.toFinset_card_of_nodup hn).symm
    _ ≤ _ := Finset.card_le_card hsub
    _ ≤ 2 := Finset.card_le_two

/-- The three points inside a rotation: after the `close`, after the
`unlink`, after the index is advanced; `FilesInv` holds at each, and after the
`unlink` only the current file can be left. -/
theorem rotation_points_inv (env : Env) (fuel : Nat) (s s1 s2 : State) (hi : FilesInv s)
    (hc : close_binary_protocol_file env fuel s = .ret s1) (hu : rotate_unlink s1 = .ret s2) :
    FilesInv s1 ∧ FilesInv s2 ∧ FilesInv (rotate_advance s2) ∧
      State.filename_or_prefix s2 = State.filename_or_prefix s ∧
      s2.current_file_index = s.current_file_index ∧ s2.file_size_limit = s.file_size_limit := by
  obtain ⟨c1, f1, -⟩ := close_frame _ _ _ _ hc
  have hi1 : FilesInv s1 := hi.of_same f1.1 f1.2.1 c1.2.2.1
  have key : s2.disk.Nodup ∧ State.filename_or_prefix s2 = State.filename_or_prefix s1 ∧
      s2.current_file_index = s1.current_file_index ∧ s2.file_size_limit = s1.file_size_limit ∧
      ∀ f ∈ s2.disk, f = indexed_name s1 s1.current_file_index := by
    unfold rotate_unlink at hu
    split at hu
    · rename_i hpos
      unfold filename_for_index at hu
      split at hu
      · simp only [Outcome.bind_ret, Outcome.ret.injEq] at hu
        subst hu
        refine ⟨hi1.1.filter _, rfl, rfl, rfl, ?_⟩
        intro f hf
        simp only [disk_unlink, List.mem_filter, decide_eq_true_eq] at hf
        rcases hi1.2 f hf.1 with h | ⟨-, h⟩
        · exact h
        · exact absurd h hf.2
      · simp at hu
    · rename_i hpos
      simp only [Outcome.ret.injEq] at hu
      subst hu
      refine ⟨hi1.1, rfl, rfl, rfl, ?_⟩
      intro f hf
      rcases hi1.2 f hf with h | ⟨h, -⟩
      · exact h
      · exact absurd h hpos
  obtain ⟨k1, k2, k3, k4, k5⟩ := key
  refine ⟨hi1, ⟨k1, ?_⟩, ⟨k1, ?_⟩, k2.trans c1.2.2.1, k3.trans f1.2.1, k4.trans c1.2.2.2⟩
  · intro f hf
    left
    rw [k5 f hf]
    simp only [indexed_name, k2, k3]
  · intro f hf
    right
    refine ⟨by simp [rotate_advance], ?_⟩
    rw [k5 f hf]
    simp [indexed_name, rotate_advance, k2, k3]

/-- Opening the file of the current index keeps `FilesInv`. -/
theorem open_file_inv (env : Env) (fuel : Nat) (a : Bool) (s s1 : State) (hi : FilesInv s)
    (hl : 0 < s.file_size_limit) (h : binary_protocol_open_file env fuel a s = .ret s1) :
    FilesInv s1 := by
  unfold binary_protocol_open_file filename_for_index at h
  simp only [hl, if_true, Outcome.bind_ret] at h
  obtain ⟨s2, ho, h⟩ := Outcome.bind_eq_ret.mp h
  obtain ⟨c1, hx, -, hd⟩ := open_loop_frame _ _ _ _ _ ho
  split at h
  · simp at h
  · simp only [Outcome.ret.injEq] at h
    subst h
    rcases hd with hd | hd
    · exact hi.of_same hd hx c1.2.2.1
    · refine ⟨?_, ?_⟩
      · rw [hd]
        exact disk_create_nodup _ _ hi.1
      · intro f hf
        rw [hd] at hf
        rcases mem_disk_create hf with h | h
        · left
          rw [h]
          simp only [indexed_name, hx, c1.2.2.1]
        · simpa only [indexed_name, hx, c1.2.2.1] using hi.2 f h

/-- The rotation check keeps `FilesInv`. -/
theorem check_file_overflow_inv (env : Env) (fuel : Nat) (s s1 : State) (hi : FilesInv s)
    (h : binary_protocol_check_file_overflow env fuel s = .ret s1) : FilesInv s1 := by
  unfold binary_protocol_check_file_overflow at h
  split at h
  · simp only [Outcome.ret.injEq] at h
    subst h
    exact hi
  · rename_i hcond
    obtain ⟨s2, hc, h⟩ := Outcome.bind_eq_ret.mp h
    obtain ⟨s3, hu, h⟩ := Outcome.bind_eq_ret.mp h
    obtain ⟨-, -, h3, -, -, hl⟩ := rotation_points_inv env fuel s s2 s3 hi hc hu
    have hl3 : 0 < (rotate_advance s3).file_size_limit := by
      simp only [rotate_advance, hl]
      omega
    exact open_file_inv env fuel true _ s1 h3 hl3 h

/-- The flush loop keeps `FilesInv`. -/
theorem flush_loop_inv (env : Env) (fuel : Nat) (bufs : List BinaryProtocolBuffer)
    (s s1 : State) (hi : FilesInv s) (h : flush_loop env fuel bufs s = .ret s1) :
    FilesInv s1 := by
  induction bufs generalizing s with
  | nil =>
    simp only [flush_loop, Outcome.ret.injEq] at h
    subst h
    exact hi
  | cons b bs ih =>
    unfold flush_loop at h
    obtain ⟨s2, hb, h⟩ := Outcome.bind_eq_ret.mp h
    obtain ⟨s3, hc, h⟩ := Outcome.bind_eq_ret.mp h
    obtain ⟨c1, f1, -⟩ := flush_buffer_frame _ _ _ _ _ hb
    exact ih _ (check_file_overflow_inv env fuel s2 s3 (hi.of_same f1.1 f1.2.1 c1.2.2.1) hc) h

/-- C7: start size-limited operation with the indexed files on disk being
`{0}` and `current_file_index = 0`, and let `s` be the state after any
sequence of buffer flushes (each `binary_protocol_flush_buffer` followed by
`binary_protocol_check_file_overflow`).  Then every file on disk is the file
of `current_file_index` or of `current_file_index - 1`, and at most two files
exist.  The same holds at every point inside a rotation that follows a further
flushed buffer: after the `close`, after the `unlink`, after the index is
advanced, and after the `open`. -/
theorem at_most_two_indexed_files (env : Env) (fuel : Nat) (s0 s : State)
    (bufs : List BinaryProtocolBuffer)
    (hdisk : s0.disk = [indexed_name s0 0]) (hindex : s0.current_file_index = 0)
    (hrun : flush_loop env fuel bufs s0 = .ret s) :
    (FilesInv s ∧ s.disk.length ≤ 2) ∧
    (∀ (b : BinaryProtocolBuffer) (sb s1 s2 : State),
        binary_protocol_flush_buffer env fuel b s = .ret sb →
        close_binary_protocol_file env fuel sb = .ret s1 →
        rotate_unlink s1 = .ret s2 →
        (FilesInv s1 ∧ s1.disk.length ≤ 2) ∧ (FilesInv s2 ∧ s2.disk.length ≤ 2) ∧
        (FilesInv (rotate_advance s2) ∧ (rotate_advance s2).disk.length ≤ 2) ∧
        ∀ s3, 0 < sb.file_size_limit →
          binary_protocol_open_file env fuel true (rotate_advance s2) = .ret s3 →
          FilesInv s3 ∧ s3.disk.length ≤ 2) := by
  have h0 : FilesInv s0 := by
    refine ⟨by rw [hdisk]; exact List.nodup_singleton _, ?_⟩
    intro f hf
    rw [hdisk] at hf
    left
    rw [hindex]
    exact List.mem_singleton.mp hf
  have hs : FilesInv s := flush_loop_inv env fuel bufs s0 s h0 hrun
  refine ⟨⟨hs, hs.length_le_two⟩, ?_⟩
  intro b sb s1 s2 hb hc hu
  obtain ⟨c1, f1, -⟩ := flush_buffer_frame _ _ _ _ _ hb
  have hsb : FilesInv sb := hs.of_same f1.1 f1.2.1 c1.2.2.1
  obtain ⟨p1, p2, p3, -, -, hl⟩ := rotation_points_inv env fuel sb s1 s2 hsb hc hu
  refine ⟨⟨p1, p1.length_le_two⟩, ⟨p2, p2.length_le_two⟩, ⟨p3, p3.length_le_two⟩, ?_⟩
  intro s3 hlim ho
  have hl3 : 0 < (rotate_advance s2).file_size_limit := by
    simp only [rotate_advance, hl]
    exact hlim
  have p4 := open_file_inv env fuel true _ s3 p3 hl3 ho
  exact ⟨p4, p4.length_le_two⟩

/-- C7 from the start state with limit `100` after one flushed buffer of
`120` bytes, which rotates from `log.0` to `log.1`. -/
theorem at_most_two_indexed_files_witness :
    State.limited.disk = [indexed_name State.limited 0] ∧
    State.limited.current_file_index = 0 ∧
    flush_loop Env.ideal 1 [BinaryProtocolBuffer.large] State.limited = .ret
      { State.limited with
          current_file_index := 1, disk := ["log.1", "log.0"], writes := 1, opens := 1,
          closes := 1 } ∧
    ({ State.limited with
          current_file_index := 1, disk := ["log.1", "log.0"], writes := 1, opens := 1,
          closes := 1 } : State).disk.length ≤ 2 :=
  ⟨rfl, rfl, rfl,
    (at_most_two_indexed_files Env.ideal 1 State.limited _ [BinaryProtocolBuffer.large]
      rfl rfl rfl).1.2⟩

/-! ## C1: records reach the file in emission order -/

theorem buffered_cons (b : BinaryProtocolBuffer) (bufs : List BinaryProtocolBuffer) :
    buffered (b :: bufs) = buffered bufs ++ b.contents := by
  simp [buffered, List.flatten_append]

/-- Storing a record appends its bytes to the used part of the buffer. -/
theorem contents_with_record (b : BinaryProtocolBuffer) (tag : Nat) (payload : List Nat) :
    (b.with_record tag (memOfList payload) payload.length).contents =
      b.contents ++ tag :: payload := by
  simp only [BinaryProtocolBuffer.contents, BinaryProtocolBuffer.with_record]
  rw [memRead_record, memRead_memOfList]

/-- One emitted record that fits: the call returns, only the buffer list
changes, every buffer holds between 1 and 65520 bytes, and the buffered bytes
grow by the record. -/
theorem protocol_entry_buffered (fuel : Nat) (r : Record) (s : State)
    (hfile : s.binary_protocol_file ≠ -1) (hc : 0 ≤ s.binary_protocol_use_count)
    (hinv : ∀ b ∈ s.binary_protocol_buffers,
      0 < b.index ∧ b.index ≤ BINARY_PROTOCOL_BUFFER_SIZE)
    (hsz : 1 + r.payload.length ≤ BINARY_PROTOCOL_BUFFER_SIZE) :
    ∃ s1, protocol_entry (fuel + 1) r.is_pool r.type (memOfList r.payload) r.payload.length s =
        .ret s1 ∧
      s1 = { s with binary_protocol_buffers := s1.binary_protocol_buffers } ∧
      (∀ b ∈ s1.binary_protocol_buffers, 0 < b.index ∧ b.index ≤ BINARY_PROTOCOL_BUFFER_SIZE) ∧
      buffered s1.binary_protocol_buffers = buffered s.binary_protocol_buffers ++ r.bytes := by
  have hfresh : (BinaryProtocolBuffer.fresh.with_record (record_tag r.is_pool r.type)
      (memOfList r.payload) r.payload.length).index = 1 + r.payload.length := by
    show 0 + 1 + r.payload.length = 1 + r.payload.length
    omega
  have hfc : BinaryProtocolBuffer.fresh.contents = [] := rfl
  cases hb : s.binary_protocol_buffers with
  | nil =>
    refine ⟨_, protocol_entry_fits_nil fuel _ _ _ _ s hfile hc hsz hb, rfl, ?_, ?_⟩
    · intro b hb1
      simp only [List.mem_singleton] at hb1
      subst hb1
      rw [hfresh]
      omega
    · show buffered [_] = buffered [] ++ r.bytes
      rw [buffered_cons, contents_with_record, hfc]
      rfl
  | cons b rest =>
    have hrest : ∀ x ∈ rest, 0 < x.index ∧ x.index ≤ BINARY_PROTOCOL_BUFFER_SIZE :=
      fun x hx => hinv x (by simp [hb, hx])
    by_cases hroom : b.index + (r.payload.length + 1) ≤ BINARY_PROTOCOL_BUFFER_SIZE
    · refine ⟨_, protocol_entry_fits_head fuel _ _ _ _ s b rest hfile hc hsz hb hroom, rfl,
        ?_, ?_⟩
      · intro x hx
        simp only [List.mem_cons] at hx
        rcases hx with rfl | hx
        · simp only [BinaryProtocolBuffer.with_record]
          omega
        · exact hrest x hx
      · show buffered (_ :: rest) = buffered (b :: rest) ++ r.bytes
        rw [buffered_cons, buffered_cons, contents_with_record, List.append_assoc]
        rfl
    · refine ⟨_, protocol_entry_fits_new fuel _ _ _ _ s b rest hfile hc hsz hb hroom, rfl,
        ?_, ?_⟩
      · intro x hx
        simp only [List.mem_cons] at hx
        rcases hx with rfl | hx
        · rw [hfresh]
          omega
        · exact hinv x hx
      · show buffered (_ :: s.binary_protocol_buffers) = buffered (b :: rest) ++ r.bytes
        rw [buffered_cons, contents_with_record, hfc, hb]
        rfl

/-- A sequence of emitted records that fit: all calls return, only the buffer
list changes, every buffer holds between 1 and 65520 bytes, and the buffered
bytes grow by the records in emission order. -/
theorem emit_all_buffered (fuel : Nat) (recs : List Record) (s : State)
    (hfile : s.binary_protocol_file ≠ -1) (hc : 0 ≤ s.binary_protocol_use_count)
    (hinv : ∀ b ∈ s.binary_protocol_buffers,
      0 < b.index ∧ b.index ≤ BINARY_PROTOCOL_BUFFER_SIZE)
    (hsz : ∀ r ∈ recs, 1 + r.payload.length ≤ BINARY_PROTOCOL_BUFFER_SIZE) :
    ∃ s1, emit_all (fuel + 1) recs s = .ret s1 ∧
      s1 = { s with binary_protocol_buffers := s1.binary_protocol_buffers } ∧
      (∀ b ∈ s1.binary_protocol_buffers, 0 < b.index ∧ b.index ≤ BINARY_PROTOCOL_BUFFER_SIZE) ∧
      buffered s1.binary_protocol_buffers =
        buffered s.binary_protocol_buffers ++ (recs.map Record.bytes).flatten := by
  induction recs generalizing s with
  | nil => exact ⟨s, rfl, rfl, hinv, by simp⟩
  | cons r rs ih =>
    obtain ⟨s1, e1, e2, e3, e4⟩ := protocol_entry_buffered fuel r s hfile hc hinv
      (hsz r (List.mem_cons_self _ _))
    have hfile1 : s1.binary_protocol_file ≠ -1 := by rw [e2]; exact hfile
    have hc1 : 0 ≤ s1.binary_protocol_use_count := by rw [e2]; exact hc
    obtain ⟨s2, f1, f2, f3, f4⟩ := ih s1 hfile1 hc1 e3
      (fun x hx => hsz x (List.mem_cons_of_mem _ hx))
    refine ⟨s2, ?_, ?_, f3, ?_⟩
    · unfold emit_all
      rw [e1]
      exact f1
    · rw [f2]
      conv_lhs => rw [e2]
    · rw [f4, e4]
      simp [List.append_assoc]

/-- Without a size limit, with writes that make progress, the flush loop
returns having appended the used part of each buffer, in the order visited,
to the file; nothing else but the size counter and the call counter changes. -/
theorem flush_loop_writes (env : Env) (hw : env.writes_progress) (fuel : Nat)
    (bufs : List BinaryProtocolBuffer) (s : State) (hfile : s.binary_protocol_file ≠ -1)
    (hl : s.file_size_limit ≤ 0) (hb : ∀ b ∈ bufs, 0 < b.index ∧ b.index ≤ fuel) :
    ∃ s1, flush_loop env fuel bufs s = .ret s1 ∧
      s1.file_data = s.file_data ++ (bufs.map BinaryProtocolBuffer.contents).flatten ∧
      s1.binary_protocol_file = s.binary_protocol_file ∧
      s1.binary_protocol_use_count = s.binary_protocol_use_count ∧
      s1.binary_protocol_buffers = s.binary_protocol_buffers := by
  induction bufs generalizing s with
  | nil => exact ⟨s, rfl, by simp, rfl, rfl, rfl⟩
  | cons b bs ih =>
    obtain ⟨hpos, hle⟩ := hb b (List.mem_cons_self _ _)
    obtain ⟨s1, e1, e2, e3, -⟩ := flush_buffer_loop_ok env hw b fuel 0 s hfile (Nat.zero_le _)
      (by omega)
    obtain ⟨c1, -, -⟩ := flush_buffer_loop_frame _ _ _ _ _ _ e1
    have hfb : binary_protocol_flush_buffer env fuel b s = .ret
        { s1 with current_file_size := s1.current_file_size + (b.index : Int) } := by
      unfold binary_protocol_flush_buffer
      rw [if_pos hpos, e1]
      rfl
    have hl1 : s1.file_size_limit ≤ 0 := by rw [c1.2.2.2]; exact hl
    have hck : binary_protocol_check_file_overflow env fuel
        { s1 with current_file_size := s1.current_file_size + (b.index : Int) } = .ret
        { s1 with current_file_size := s1.current_file_size + (b.index : Int) } := by
      unfold binary_protocol_check_file_overflow
      rw [if_pos (Or.inl hl1)]
    obtain ⟨s2, f1, f2, f3, f4, f5⟩ := ih
      { s1 with current_file_size := s1.current_file_size + (b.index : Int) }
      (by rw [← e3] at hfile; exact hfile) hl1 (fun x hx => hb x (List.mem_cons_of_mem _ hx))
    refine ⟨s2, ?_, ?_, f3.trans e3, f4.trans c1.1, f5.trans c1.2.1⟩
    · unfold flush_loop
      rw [hfb, Outcome.bind_ret, hck, Outcome.bind_ret]
      exact f1
    · rw [f2]
      show s1.file_data ++ _ = _
      rw [e2]
      simp [BinaryProtocolBuffer.contents, List.append_assoc]

/-- Emission followed by a flush, with writes that make progress and no size
limit: all calls return, the flush returns `TRUE`, the buffer list is empty
and the file has received the records in emission order. -/
theorem emit_then_flush (env : Env) (hw : env.writes_progress)
    (fuel : Nat) (hfuel : BINARY_PROTOCOL_BUFFER_SIZE ≤ fuel) (force : Bool) (s : State)
    (recs : List Record) (hfile : s.binary_protocol_file ≠ -1)
    (hempty : s.binary_protocol_buffers = []) (hl : s.file_size_limit ≤ 0)
    (hc : 0 ≤ s.binary_protocol_use_count)
    (hgate : force = true ∨ s.binary_protocol_use_count = 0)
    (hsz : ∀ r ∈ recs, 1 + r.payload.length ≤ BINARY_PROTOCOL_BUFFER_SIZE) :
    ∃ s1 s2, emit_all fuel recs s = .ret s1 ∧
      binary_protocol_flush_buffers env fuel force s1 = .ret (true, s2) ∧
      s2.binary_protocol_buffers = [] ∧
      s2.file_data = s.file_data ++ (recs.map Record.bytes).flatten := by
  obtain ⟨n, rfl⟩ : ∃ n, fuel = n + 1 :=
    ⟨fuel - 1, by unfold BINARY_PROTOCOL_BUFFER_SIZE at hfuel; omega⟩
  obtain ⟨s1, e1, e2, e3, e4⟩ := emit_all_buffered n recs s hfile hc
    (by rw [hempty]; intro b hb; simp at hb) hsz
  have hfile1 : s1.binary_protocol_file ≠ -1 := by rw [e2]; exact hfile
  have hc1 : s1.binary_protocol_use_count = s.binary_protocol_use_count := by rw [e2]
  have hl1 : s1.file_size_limit ≤ 0 := by rw [e2]; exact hl
  have hfd1 : s1.file_data = s.file_data := by rw [e2]
  have hbufs : ∀ b ∈ s1.binary_protocol_buffers.reverse, 0 < b.index ∧ b.index ≤ n + 1 := by
    intro b hb
    obtain ⟨h1, h2⟩ := e3 b (List.mem_reverse.mp hb)
    exact ⟨h1, le_trans h2 hfuel⟩
  have hdata : (s1.binary_protocol_buffers.reverse.map BinaryProtocolBuffer.contents).flatten =
      (recs.map Record.bytes).flatten := by
    have := e4
    rw [hempty] at this
    simpa [buffered] using this
  cases force with
  | true =>
    obtain ⟨s2, f1, f2, -, -, f5⟩ := flush_loop_writes env hw (n + 1)
      s1.binary_protocol_buffers.reverse { s1 with binary_protocol_buffers := [] }
      hfile1 hl1 hbufs
    refine ⟨s1, s2, e1, ?_, f5, ?_⟩
    · rw [flush_buffers_forced env (n + 1) s1 hfile1, f1]
      rfl
    · rw [f2, hdata]
      show s1.file_data ++ _ = _
      rw [hfd1]
  | false =>
    have hz : s1.binary_protocol_use_count = 0 := by
      rw [hc1]
      rcases hgate with h | h
      · exact absurd h (by decide)
      · exact h
    obtain ⟨s2, f1, f2, -, f4, f5⟩ := flush_loop_writes env hw (n + 1)
      s1.binary_protocol_buffers.reverse
      { s1 with binary_protocol_use_count := -1, binary_protocol_buffers := [] }
      hfile1 hl1 hbufs
    refine ⟨s1, { s2 with binary_protocol_use_count := 0 }, e1, ?_, f5, ?_⟩
    · rw [flush_buffers_free env (n + 1) s1 hfile1 hz, f1, Outcome.bind_ret]
      have hm1 : s2.binary_protocol_use_count = -1 := f4
      unfold unlock_exclusive
      rw [if_pos hm1]
      rfl
    · show s2.file_data = _
      rw [f2, hdata]
      show s1.file_data ++ _ = _
      rw [hfd1]

/-- C1 as amended: starting with the sink enabled, the buffer list empty, no size limit,
and the gate counter non-negative (and `0` unless the flush is forced), let
records with `1 + len (payload) <= 65520` be emitted one after another by
`protocol_entry`, and let `binary_protocol_flush_buffers` follow on an
operating system whose every `write` accepts at least one byte.  Then all the
calls return, the flush returns `TRUE`, the buffer list is empty, and the file
has received exactly the bytes `t_1 p_1 ... t_n p_n` in emission order, where
`t_k` is the event kind with bit `0x80` set for a thread-pool emitter; their
number is the sum of `1 + len (p_k)`. -/
theorem emitted_records_reach_file_in_order (env : Env) (hw : env.writes_progress)
    (fuel : Nat) (hfuel : BINARY_PROTOCOL_BUFFER_SIZE ≤ fuel) (force : Bool) (s : State)
    (recs : List Record) (hfile : s.binary_protocol_file ≠ -1)
    (hempty : s.binary_protocol_buffers = []) (hl : s.file_size_limit ≤ 0)
    (hc : 0 ≤ s.binary_protocol_use_count)
    (hgate : force = true ∨ s.binary_protocol_use_count = 0)
    (hsz : ∀ r ∈ recs, 1 + r.payload.length ≤ BINARY_PROTOCOL_BUFFER_SIZE) :
    ∃ s1 s2, emit_all fuel recs s = .ret s1 ∧
      binary_protocol_flush_buffers env fuel force s1 = .ret (true, s2) ∧
      s2.binary_protocol_buffers = [] ∧
      s2.file_data = s.file_data ++ (recs.map Record.bytes).flatten ∧
      ((recs.map Record.bytes).flatten).length = (recs.map fun r => 1 + r.payload.length).sum := by
  obtain ⟨s1, s2, h1, h2, h3, h4⟩ :=
    emit_then_flush env hw fuel hfuel force s recs hfile hempty hl hc hgate hsz
  refine ⟨s1, s2, h1, h2, h3, h4, ?_⟩
  clear h1 h4 hsz
  induction recs with
  | nil => rfl
  | cons r rs ih =>
    simp only [List.map_cons, List.flatten_cons, List.length_append, List.sum_cons, ih,
      Record.bytes, List.length_cons]
    omega

theorem Env.ideal_writes_progress : Env.ideal.writes_progress :=
  fun _ => ⟨BINARY_PROTOCOL_BUFFER_SIZE, by decide, rfl⟩

/-- Each of the sample records fits a buffer. -/
theorem sample_records_fit :
    ∀ r ∈ sample_records, 1 + r.payload.length ≤ BINARY_PROTOCOL_BUFFER_SIZE := by
  intro r hr
  simp only [sample_records, List.mem_cons, List.mem_singleton, List.not_mem_nil,
    or_false] at hr
  rcases hr with rfl | rfl | rfl <;> decide

/-- C1 fails in its example: three records with payloads of 4, 8 and 2 bytes,
emitted from the empty buffer list and flushed with `force = TRUE`, put 17
bytes in the file (3 tags and 14 payload bytes), not 15. -/
theorem three_records_fifteen_bytes_counterexample :
    ((emit_all 65520 sample_records State.opened).bind fun s1 =>
      (binary_protocol_flush_buffers Env.ideal 65520 true s1).bind fun r =>
        (.ret (r.1, r.2.file_data, r.2.file_data.length) :
          Outcome State (Bool × List Nat × Nat))) =
      .ret (true, [1, 11, 12, 13, 14, 130, 21, 22, 23, 24, 25, 26, 27, 28, 3, 31, 32], 17) ∧
    (17 : Nat) ≠ 15 := by
  obtain ⟨s1, s2, h1, h2, -, h4⟩ :=
    emit_then_flush Env.ideal Env.ideal_writes_progress 65520 (by decide) true State.opened
      sample_records (by decide) rfl (by decide) (by decide) (Or.inl rfl) sample_records_fit
  have h5 : s2.file_data =
      [1, 11, 12, 13, 14, 130, 21, 22, 23, 24, 25, 26, 27, 28, 3, 31, 32] := h4
  refine ⟨?_, by decide⟩
  rw [h1, Outcome.bind_ret, h2, Outcome.bind_ret]
  show Outcome.ret (true, s2.file_data, s2.file_data.length) = _
  rw [h5]
  rfl

/-- C1 for payloads of 4, 8 and 2 bytes and a forced flush: the file receives
exactly these 17 bytes (3 tags and 14 payload bytes), in emission order. -/
theorem emitted_records_reach_file_in_order_witness :
    Env.ideal.writes_progress ∧ BINARY_PROTOCOL_BUFFER_SIZE ≤ 65520 ∧
    State.opened.binary_protocol_file ≠ -1 ∧ State.opened.binary_protocol_buffers = [] ∧
    State.opened.file_size_limit ≤ 0 ∧ 0 ≤ State.opened.binary_protocol_use_count ∧
    (true = true ∨ State.opened.binary_protocol_use_count = 0) ∧
    (∀ r ∈ sample_records, 1 + r.payload.length ≤ BINARY_PROTOCOL_BUFFER_SIZE) ∧
    ∃ s1 s2, emit_all 65520 sample_records State.opened = .ret s1 ∧
      binary_protocol_flush_buffers Env.ideal 65520 true s1 = .ret (true, s2) ∧
      s2.binary_protocol_buffers = [] ∧
      s2.file_data =
        [1, 11, 12, 13, 14, 130, 21, 22, 23, 24, 25, 26, 27, 28, 3, 31, 32] ∧
      ([1, 11, 12, 13, 14, 130, 21, 22, 23, 24, 25, 26, 27, 28, 3, 31, 32] : List Nat).length =
        17 :=
  ⟨Env.ideal_writes_progress, by decide, by decide, rfl, by decide, by decide, Or.inl rfl,
    sample_records_fit,
    emitted_records_reach_file_in_order Env.ideal Env.ideal_writes_progress 65520 (by decide)
      true State.opened sample_records (by decide) rfl (by decide) (by decide) (Or.inl rfl)
      sample_records_fit⟩

/-! ## C5: the unforced flush and the gate -/

/-- With writes that make progress, opens that succeed and closes that are not
interrupted, the flush loop returns with the descriptor valid, whether or not
files rotate on the way. -/
theorem flush_loop_returns (env : Env) (hw : env.writes_progress) (ho : env.opens_succeed)
    (hcl : env.closes_complete) (fuel : Nat) (bufs : List BinaryProtocolBuffer) (s : State)
    (hfile : s.binary_protocol_file ≠ -1)
    (hb : ∀ b ∈ bufs, 0 < b.index ∧ b.index ≤ fuel + 1) :
    ∃ s1, flush_loop env (fuel + 1) bufs s = .ret s1 ∧ s1.binary_protocol_file ≠ -1 := by
  induction bufs generalizing s with
  | nil => exact ⟨s, rfl, hfile⟩
  | cons b bs ih =>
    obtain ⟨hpos, hle⟩ := hb b (List.mem_cons_self _ _)
    obtain ⟨s1, e1, -, e3, -⟩ := flush_buffer_loop_ok env hw b (fuel + 1) 0 s hfile
      (Nat.zero_le _) (by omega)
    have hfb : binary_protocol_flush_buffer env (fuel + 1) b s = .ret
        { s1 with current_file_size := s1.current_file_size + (b.index : Int) } := by
      unfold binary_protocol_flush_buffer
      rw [if_pos hpos, e1]
      rfl
    have hck : ∃ s2, binary_protocol_check_file_overflow env (fuel + 1)
        { s1 with current_file_size := s1.current_file_size + (b.index : Int) } = .ret s2 ∧
        s2.binary_protocol_file ≠ -1 := by
      by_cases hcond : s1.file_size_limit ≤ 0 ∨
          s1.current_file_size + (b.index : Int) < s1.file_size_limit
      · refine ⟨{ s1 with current_file_size := s1.current_file_size + (b.index : Int) },
          ?_, ?_⟩
        · unfold binary_protocol_check_file_overflow
          rw [if_pos hcond]
        · show s1.binary_protocol_file ≠ -1
          rw [e3]
          exact hfile
      · obtain ⟨fd, hfd⟩ := ho s1.opens
        refine ⟨_, check_file_overflow_rotate env fuel
          { s1 with current_file_size := s1.current_file_size + (b.index : Int) } fd
          (by show 0 < s1.file_size_limit; omega)
          (by show s1.file_size_limit ≤ s1.current_file_size + (b.index : Int); omega)
          (hcl _) hfd, ?_⟩
        show (fd : Int) ≠ -1
        omega
    obtain ⟨s2, hck1, hck2⟩ := hck
    obtain ⟨s3, f1, f2⟩ := ih s2 hck2 (fun x hx => hb x (List.mem_cons_of_mem _ hx))
    refine ⟨s3, ?_, f2⟩
    unfold flush_loop
    rw [hfb, Outcome.bind_ret, hck1, Outcome.bind_ret]
    exact f1

/-- C5: with the sink enabled, `binary_protocol_flush_buffers (FALSE)` decides
by the gate counter on entry.  When the counter is non-zero it returns `FALSE`
at once with the state unchanged (gate counter, buffer list and contents,
`current_file_size`, `current_file_index`; nothing is written), for every loop
budget.  Whenever it returns, the result is `TRUE` exactly when the counter
was `0`, and then the counter is `0` again and the buffer list is empty.  And
when the counter is `0` it does return `TRUE`, given buffers that hold at
least one byte, writes that make progress, opens that succeed, closes that
are not interrupted, and a loop budget of the largest buffer index. -/
theorem unforced_flush_true_iff_gate_free (env : Env) (s : State)
    (hfile : s.binary_protocol_file ≠ -1) :
    (s.binary_protocol_use_count ≠ 0 →
        ∀ fuel, binary_protocol_flush_buffers env fuel false s = .ret (false, s)) ∧
    (∀ fuel r s1, binary_protocol_flush_buffers env fuel false s = .ret (r, s1) →
        (r = true ↔ s.binary_protocol_use_count = 0) ∧
        (r = true → s1.binary_protocol_use_count = 0 ∧ s1.binary_protocol_buffers = [])) ∧
    (s.binary_protocol_use_count = 0 →
        env.writes_progress → env.opens_succeed → env.closes_complete →
        ∀ fuel, (∀ b ∈ s.binary_protocol_buffers, 0 < b.index ∧ b.index ≤ fuel + 1) →
        ∃ s1, binary_protocol_flush_buffers env (fuel + 1) false s = .ret (true, s1) ∧
          s1.binary_protocol_use_count = 0 ∧ s1.binary_protocol_buffers = []) := by
  refine ⟨?_, ?_, ?_⟩
  · intro hc fuel
    exact flush_buffers_busy env fuel s hfile hc
  · intro fuel r s1 h
    by_cases hc : s.binary_protocol_use_count = 0
    · rw [flush_buffers_free env fuel s hfile hc] at h
      obtain ⟨s3, hl3, h⟩ := Outcome.bind_eq_ret.mp h
      obtain ⟨s4, hu, h⟩ := Outcome.bind_eq_ret.mp h
      simp only [Outcome.ret.injEq, Prod.mk.injEq] at h
      obtain ⟨rfl, rfl⟩ := h
      have hfr := flush_loop_frame _ _ _ _ _ hl3
      unfold unlock_exclusive at hu
      split at hu
      · simp only [Outcome.ret.injEq] at hu
        subst hu
        exact ⟨⟨fun _ => hc, fun _ => rfl⟩, fun _ => ⟨rfl, hfr.2.1⟩⟩
      · simp at hu
    · rw [flush_buffers_busy env fuel s hfile hc] at h
      simp only [Outcome.ret.injEq, Prod.mk.injEq] at h
      obtain ⟨rfl, rfl⟩ := h
      exact ⟨⟨fun h => absurd h (by decide), fun h => absurd h hc⟩,
        fun h => absurd h (by decide)⟩
  · intro hc hw ho hcl fuel hb
    obtain ⟨s3, f1, -⟩ := flush_loop_returns env hw ho hcl fuel
      s.binary_protocol_buffers.reverse
      { s with binary_protocol_use_count := -1, binary_protocol_buffers := [] } hfile
      (fun b hb1 => hb b (List.mem_reverse.mp hb1))
    have hfr := flush_loop_frame _ _ _ _ _ f1
    have hm1 : s3.binary_protocol_use_count = -1 := hfr.1
    refine ⟨{ s3 with binary_protocol_use_count := 0 }, ?_, rfl, hfr.2.1⟩
    rw [flush_buffers_free env (fuel + 1) s hfile hc, f1, Outcome.bind_ret]
    unfold unlock_exclusive
    rw [if_pos hm1]
    rfl

/-- C5 on the enabled state with one buffer waiting and the gate free. -/
theorem unforced_flush_true_iff_gate_free_witness :
    State.loaded.binary_protocol_file ≠ -1 ∧
    ((State.loaded.binary_protocol_use_count ≠ 0 →
        ∀ fuel, binary_protocol_flush_buffers Env.ideal fuel false State.loaded =
          .ret (false, State.loaded)) ∧
    (∀ fuel r s1, binary_protocol_flush_buffers Env.ideal fuel false State.loaded = .ret (r, s1) →
        (r = true ↔ State.loaded.binary_protocol_use_count = 0) ∧
        (r = true → s1.binary_protocol_use_count = 0 ∧ s1.binary_protocol_buffers = [])) ∧
    (State.loaded.binary_protocol_use_count = 0 →
        Env.ideal.writes_progress → Env.ideal.opens_succeed → Env.ideal.closes_complete →
        ∀ fuel, (∀ b ∈ State.loaded.binary_protocol_buffers, 0 < b.index ∧ b.index ≤ fuel + 1) →
        ∃ s1, binary_protocol_flush_buffers Env.ideal (fuel + 1) false State.loaded =
            .ret (true, s1) ∧
          s1.binary_protocol_use_count = 0 ∧ s1.binary_protocol_buffers = [])) :=
  ⟨by decide, unforced_flush_true_iff_gate_free Env.ideal State.loaded (by decide)⟩

end SgenProtocol
